import Mathlib

/-!
A shallow embedding of the guest address-space allocator of
`src/mem/allocator.rs` (struct `Allocator` and struct `Chunk`).

Modelling conventions:

* `VAddr` (`u32`) and `GuestUSize` (`u32`) are modelled as `Nat`.  All u32
  arithmetic the source performs on reachable states is overflow-free, with
  three exceptions, which are modelled explicitly as checked arithmetic
  (an overflow is a fatal failure, exactly like the source's panics):
  - `Allocator::align_size`: `size + 16` can overflow u32;
  - `Chunk::new` inside `Allocator::try_combine_with_neighbour`:
    `chunk.size + other_chunk.size` can overflow u32 (and a wrapped sum of
    `0` would make `NonZeroU32::new(..).unwrap()` panic as well);
  - `Chunk::last_byte` of the chunk passed to `Allocator::reserve`:
    `base + (size - 1)` can overflow u32.  `trisect_by` evaluates
    `middle.last_byte()` exactly when some free chunk contains
    `middle.base` (the `||` short-circuits otherwise), and `reserve`
    panics at the end of its loop when no trisection succeeds, so an
    out-of-range argument makes `reserve` fail fatally in every case;
    this is modelled as an upfront range guard in `Allocator.reserve`.

* Rust panics (`panic!`, `assert_eq!`, `unwrap` failures, arithmetic
  overflow) are fatal failures.  Each operation returns an `OpResult`
  which, in the fatal case, records the allocator state at the moment of
  the panic, so that statements about partial mutation can be made.

* `Vec<Chunk>` is `List Chunk` in the same order (`push` appends at the
  end, `Vec::remove i` is `List.eraseIdx i`, `Vec::swap_remove i` is
  `swapRemove`, iteration `.iter().enumerate().rev()` walks
  `l.enum.reverse`, `.position(p)` is `List.findIdx? p`).

* `HashMap<VAddr, Chunk>` is an association list `List (Nat × Chunk)`;
  the source only ever calls key-based `get`/`insert`/`remove` on it and
  never iterates it, so any representation with map semantics is
  observationally faithful.  `insert` replaces an existing binding.
-/

/-- A non-empty range of bytes in virtual address space
(struct `Chunk` of the source; the `NonZeroU32` size niche is not carried
in the type: every `Chunk` the source constructs on a non-panicking path
has a positive size, which is proved as an invariant instead). -/
structure Chunk where
  base : Nat
  size : Nat
deriving DecidableEq

/-- `Chunk::last_byte`: `self.base + (self.size.get() - 1)`. -/
def Chunk.last_byte (c : Chunk) : Nat := c.base + (c.size - 1)

/-- `Chunk::contains`: `self.base <= addr && addr <= self.last_byte()`. -/
def Chunk.contains (c : Chunk) (addr : Nat) : Prop :=
  c.base ≤ addr ∧ addr ≤ c.last_byte

instance (c : Chunk) (addr : Nat) : Decidable (c.contains addr) := by
  unfold Chunk.contains; infer_instance

/-- `Chunk::trisect_by`. -/
def Chunk.trisect_by (c middle : Chunk) : Option (Option Chunk × Option Chunk) :=
  if c.contains middle.base ∧ c.contains middle.last_byte then
    let left : Option Chunk :=
      if middle.base - c.base = 0 then none
      else some ⟨c.base, middle.base - c.base⟩
    let right : Option Chunk :=
      if c.last_byte - middle.last_byte = 0 then none
      else some ⟨middle.last_byte + 1, c.last_byte - middle.last_byte⟩
    some (left, right)
  else
    none

/-- Modelled from the spec: the constants `Mem::NULL_PAGE_SIZE`,
`Mem::MAIN_THREAD_STACK_SIZE` and `Mem::MAIN_THREAD_STACK_LOW_END` used by
`Allocator::new` live in `src/mem.rs`, which is not part of the sampled
sources.  The spec describes them as a 4096-byte guard region at address 0
and a 1 MiB stack region at the top of the flat 32-bit address space. -/
def NULL_PAGE_SIZE : Nat := 4096

/-- Modelled from the spec: 1 MiB main-thread stack size (see
`NULL_PAGE_SIZE` for provenance). -/
def MAIN_THREAD_STACK_SIZE : Nat := 1024 * 1024

/-- Modelled from the spec: the stack sits at the top of the 32-bit
address space (see `NULL_PAGE_SIZE` for provenance). -/
def MAIN_THREAD_STACK_LOW_END : Nat := 2 ^ 32 - MAIN_THREAD_STACK_SIZE

/-- The allocator state: `unused_chunks` is the free list (a `Vec` in the
source, order preserved), `heap_used_chunks` the used map (a `HashMap` in
the source, modelled as an association list). -/
structure Allocator where
  unused_chunks : List Chunk
  heap_used_chunks : List (Nat × Chunk)
deriving DecidableEq

/-- `HashMap::get` on the association-list model. -/
def mapGet (m : List (Nat × Chunk)) (k : Nat) : Option Chunk :=
  match m.find? (fun p => p.1 == k) with
  | some p => some p.2
  | none => none

/-- `HashMap::insert` on the association-list model (replaces any existing
binding of the key). -/
def mapInsert (m : List (Nat × Chunk)) (k : Nat) (v : Chunk) : List (Nat × Chunk) :=
  (k, v) :: m.filter (fun p => p.1 != k)

/-- `HashMap::remove` on the association-list model. -/
def mapRemove (m : List (Nat × Chunk)) (k : Nat) : List (Nat × Chunk) :=
  m.filter (fun p => p.1 != k)

/-- Result of one allocator operation: `ok` carries the returned value and
the new state; `fatal` models a panic and carries the state at the moment
of the panic. -/
inductive OpResult (α : Type) where
  | ok (val : α) (state : Allocator)
  | fatal (state : Allocator)
deriving DecidableEq

/-- `Allocator::new`. -/
def Allocator.new : Allocator :=
  let null_page : Chunk := ⟨0, NULL_PAGE_SIZE⟩
  let main_thread_stack : Chunk := ⟨MAIN_THREAD_STACK_LOW_END, MAIN_THREAD_STACK_SIZE⟩
  let rest : Chunk := ⟨NULL_PAGE_SIZE, MAIN_THREAD_STACK_LOW_END - NULL_PAGE_SIZE⟩
  { unused_chunks := [rest]
    heap_used_chunks :=
      mapInsert (mapInsert [] null_page.base null_page)
        main_thread_stack.base main_thread_stack }

/-- The search loop of `Allocator::reserve`: try `trisect_by` on each free
chunk in order; at the first success, remove that chunk (`Vec::remove`)
and push the `before`/`after` remainders at the end of the free list.
`pre` accumulates the already-visited prefix. -/
def reserveLoop (chunk : Chunk) : List Chunk → List Chunk → Option (List Chunk)
  | _pre, [] => none
  | pre, c :: rest =>
    match c.trisect_by chunk with
    | some (before, after) =>
      some ((pre ++ rest) ++ before.toList ++ after.toList)
    | none => reserveLoop chunk (pre ++ [c]) rest

/-- `Allocator::reserve`.  The upfront guard models the u32 overflow of
`chunk.last_byte()` (see the module docstring): with
`2^32 < chunk.base + chunk.size` the source panics in every case. -/
def Allocator.reserve (a : Allocator) (chunk : Chunk) : OpResult Unit :=
  if 2 ^ 32 < chunk.base + chunk.size then .fatal a
  else
    match reserveLoop chunk [] a.unused_chunks with
    | some newFree =>
      .ok () { unused_chunks := newFree
               heap_used_chunks := mapInsert a.heap_used_chunks chunk.base chunk }
    | none => .fatal a

/-- `Allocator::align_size`, with the u32 overflow of `size + 16` modelled
as checked arithmetic (`none` = panic). -/
def Allocator.align_size (size : Nat) : Option Nat :=
  let size := max size 16
  if size % 16 ≠ 0 then
    if size + 16 < 2 ^ 32 then some (size + 16 - size % 16) else none
  else some size

/-- One update of the `big_enough_chunk` candidate in the scan of
`Allocator::alloc`: replace the running candidate only when the chunk is
strictly larger than the request and strictly smaller than the candidate.
(The source stores `(idx, size)`; the whole chunk is carried here, which
holds the same information since the chunk at `idx` is that chunk.) -/
def allocBigger (size : Nat) (idx : Nat) (c : Chunk) :
    Option (Nat × Chunk) → Option (Nat × Chunk)
  | none => if size < c.size then some (idx, c) else none
  | some (bidx, bc) =>
    if size < c.size ∧ c.size < bc.size then some (idx, c) else some (bidx, bc)

/-- The candidate scan of `Allocator::alloc` over
`unused_chunks.iter().enumerate().rev()`: stop at the first exact-size
chunk, otherwise fold `allocBigger` over the remaining entries. -/
def allocScan (size : Nat) : List (Nat × Chunk) → Option (Nat × Chunk) → Option (Nat × Chunk)
  | [], big => big
  | (idx, c) :: rest, big =>
    if c.size = size then some (idx, c)
    else allocScan size rest (allocBigger size idx c big)

/-- `Allocator::split_chunk`.  The `assert_eq!(size, existing_chunk.size)`
panic in the `else` branch is the `fatal` case. -/
def Allocator.split_chunk (a : Allocator) (size : Nat) (existing_chunk : Chunk) :
    OpResult Nat :=
  if size < existing_chunk.size then
    let allocChunk : Chunk := ⟨existing_chunk.base, size⟩
    let rump : Chunk := ⟨existing_chunk.base + size, existing_chunk.size - size⟩
    .ok allocChunk.base
      { unused_chunks := a.unused_chunks ++ [rump]
        heap_used_chunks := mapInsert a.heap_used_chunks allocChunk.base allocChunk }
  else if size = existing_chunk.size then
    .ok existing_chunk.base
      { a with heap_used_chunks := mapInsert a.heap_used_chunks existing_chunk.base existing_chunk }
  else .fatal a

/-- `Allocator::alloc`.  Note that `Vec::remove idx` happens before
`split_chunk` is entered, so a (in fact unreachable) `assert_eq!` panic
inside `split_chunk` would leave the chunk already removed. -/
def Allocator.alloc (a : Allocator) (size : Nat) : OpResult Nat :=
  match Allocator.align_size size with
  | none => .fatal a
  | some size =>
    match allocScan size a.unused_chunks.enum.reverse none with
    | none => .fatal a
    | some (idx, existing_chunk) =>
      Allocator.split_chunk { a with unused_chunks := a.unused_chunks.eraseIdx idx }
        size existing_chunk

/-- `Allocator::find_allocated_chunk`. -/
def Allocator.find_allocated_chunk (a : Allocator) (base : Nat) : OpResult Chunk :=
  match mapGet a.heap_used_chunks base with
  | none => .fatal a
  | some chunk => .ok chunk a

/-- `Vec::swap_remove i`: overwrite position `i` with the last element and
pop the last element. -/
def swapRemove (l : List Chunk) (i : Nat) : List Chunk :=
  (l.set i (l.getLastD ⟨0, 0⟩)).dropLast

/-- The neighbour test of `Allocator::try_combine_with_neighbour` (the
source evaluates it in u64, so it never overflows). -/
def neighbourTest (chunk : Chunk) (allow_left_grow : Bool) (other : Chunk) : Bool :=
  (other.base == chunk.last_byte + 1)
    || (allow_left_grow && (chunk.base == other.last_byte + 1))

/-- `Allocator::try_combine_with_neighbour`.  The combined size
`chunk.size + other_chunk.size` is checked u32 arithmetic: on overflow the
source panics after the `swap_remove`, which the `fatal` state records. -/
def Allocator.try_combine_with_neighbour (a : Allocator) (chunk : Chunk)
    (allow_left_grow : Bool) : OpResult (Chunk × Bool) :=
  match a.unused_chunks.findIdx? (neighbourTest chunk allow_left_grow) with
  | some i =>
    let other_chunk := a.unused_chunks.getD i ⟨0, 0⟩
    let a' : Allocator := { a with unused_chunks := swapRemove a.unused_chunks i }
    if chunk.size + other_chunk.size < 2 ^ 32 then
      .ok (⟨min chunk.base other_chunk.base, chunk.size + other_chunk.size⟩, true) a'
    else .fatal a'
  | none => .ok (chunk, false) a

/-- `Allocator::free`. -/
def Allocator.free (a : Allocator) (base : Nat) : OpResult Nat :=
  match mapGet a.heap_used_chunks base with
  | none => .fatal a
  | some chunk =>
    let size := chunk.size
    let a₁ : Allocator := { a with heap_used_chunks := mapRemove a.heap_used_chunks base }
    match a₁.try_combine_with_neighbour chunk true with
    | .fatal s => .fatal s
    | .ok (combined_chunk, _) a₂ =>
      .ok size { a₂ with unused_chunks := a₂.unused_chunks ++ [combined_chunk] }

/-- One public call, for sequences of operations.  `reserve` arguments are
given as raw base/size so that the `Chunk::new` panic on a zero size can
be modelled at the call site. -/
inductive AllocOp where
  | reserve (base size : Nat)
  | alloc (size : Nat)
  | free (base : Nat)
deriving DecidableEq

/-- Run one call, keeping only the state; `none` means the call failed
fatally. -/
def runOp (a : Allocator) : AllocOp → Option Allocator
  | .reserve b s =>
    if s = 0 then none
    else
      match a.reserve ⟨b, s⟩ with
      | .ok _ a' => some a'
      | .fatal _ => none
  | .alloc n =>
    match a.alloc n with
    | .ok _ a' => some a'
    | .fatal _ => none
  | .free b =>
    match a.free b with
    | .ok _ a' => some a'
    | .fatal _ => none

/-- Run a sequence of calls; `none` as soon as one call fails fatally. -/
def runOps (a : Allocator) : List AllocOp → Option Allocator
  | [] => some a
  | op :: ops =>
    match runOp a op with
    | some a' => runOps a' ops
    | none => none

/-! ## Derived notions used by the claims -/

/-- Two chunks are disjoint: their byte ranges do not overlap (for chunks
of positive size this is the spec's "neither's base byte lies within the
other's span"). -/
def Chunk.disjoint (c d : Chunk) : Prop :=
  c.base + c.size ≤ d.base ∨ d.base + d.size ≤ c.base

/-- A chunk lies within the 32-bit address space. -/
def Chunk.bounded (c : Chunk) : Prop := c.base + c.size ≤ 2 ^ 32

instance (c d : Chunk) : Decidable (c.disjoint d) := by
  unfold Chunk.disjoint
  infer_instance

instance (c : Chunk) : Decidable c.bounded := by
  unfold Chunk.bounded
  infer_instance

/-- The chunks stored in the used map. -/
def usedChunks (a : Allocator) : List Chunk := a.heap_used_chunks.map Prod.snd

/-- Every region the allocator tracks, free list first. -/
def allChunks (a : Allocator) : List Chunk := a.unused_chunks ++ usedChunks a

/-- A list of chunks tiles the address space: pairwise disjoint, positive
bounded sizes, and every address of the space is covered. -/
def Tiles (l : List Chunk) : Prop :=
  l.Pairwise Chunk.disjoint
    ∧ (∀ c ∈ l, 0 < c.size ∧ c.bounded)
    ∧ ∀ addr < 2 ^ 32, ∃ c ∈ l, c.contains addr

/-- Well-formedness of the used map: each value's base is its key and keys
are unique (as for a `HashMap` keyed by the chunk's base). -/
def UsedWF (m : List (Nat × Chunk)) : Prop :=
  (∀ p ∈ m, p.2.base = p.1) ∧ (m.map Prod.fst).Nodup

/-- The inductive invariant of the allocator. -/
def AllocInv (a : Allocator) : Prop := Tiles (allChunks a) ∧ UsedWF a.heap_used_chunks

/-- The invariant exactly as claim C1 words it: free regions pairwise
disjoint, used regions pairwise disjoint, free disjoint from used, no
zero-size region, and the union of all regions covers the full address
space. -/
def ClaimedInvariant (a : Allocator) : Prop :=
  a.unused_chunks.Pairwise Chunk.disjoint
    ∧ (usedChunks a).Pairwise Chunk.disjoint
    ∧ (∀ c ∈ a.unused_chunks, ∀ d ∈ usedChunks a, c.disjoint d)
    ∧ (∀ c ∈ allChunks a, c.size ≠ 0)
    ∧ ∀ addr < 2 ^ 32, ∃ c ∈ allChunks a, c.contains addr

/-- The spec's adjacency relation used by the coalescing policy: the
neighbour starts right after the region, or the region starts right after
the neighbour. -/
def AdjacentTo (c n : Chunk) : Prop :=
  n.base = c.last_byte + 1 ∨ c.base = n.last_byte + 1

instance (c n : Chunk) : Decidable (AdjacentTo c n) := by
  unfold AdjacentTo
  infer_instance

/-- The remainder of a containing free region strictly before a reserved
span (spec: the portion strictly before the requested span). -/
def beforeRemainder (f c : Chunk) : List Chunk :=
  if f.base < c.base then [⟨f.base, c.base - f.base⟩] else []

/-- The remainder of a containing free region strictly after a reserved
span (spec: the portion strictly after the requested span). -/
def afterRemainder (f c : Chunk) : List Chunk :=
  if c.base + c.size < f.base + f.size then
    [⟨c.base + c.size, f.base + f.size - (c.base + c.size)⟩]
  else []

/-! ## Chunk arithmetic lemmas -/

theorem Chunk.disjoint_symm {c d : Chunk} (h : c.disjoint d) : d.disjoint c := by
  unfold Chunk.disjoint at *; omega

theorem Chunk.contains_iff {c : Chunk} (hc : 0 < c.size) (addr : Nat) :
    c.contains addr ↔ c.base ≤ addr ∧ addr < c.base + c.size := by
  unfold Chunk.contains Chunk.last_byte; omega

theorem Chunk.contains_base {c : Chunk} (hc : 0 < c.size) : c.contains c.base := by
  unfold Chunk.contains Chunk.last_byte; omega

theorem Chunk.disjoint_of_not_overlap {c d : Chunk}
    (h : ∀ addr, c.contains addr → ¬ d.contains addr)
    (hc : 0 < c.size) (hd : 0 < d.size) : c.disjoint d := by
  by_contra hnd
  unfold Chunk.disjoint at hnd
  exact h (max c.base d.base)
    (by unfold Chunk.contains Chunk.last_byte; omega)
    (by unfold Chunk.contains Chunk.last_byte; omega)

theorem Chunk.not_contains_of_disjoint {c d : Chunk} (h : c.disjoint d)
    (hc : 0 < c.size) (hd : 0 < d.size) {addr : Nat} (ha : c.contains addr) :
    ¬ d.contains addr := by
  unfold Chunk.contains Chunk.last_byte at *
  unfold Chunk.disjoint at h
  omega

/-! ## Tiles lemmas -/

theorem Tiles.perm {l l' : List Chunk} (h : Tiles l) (hp : l.Perm l') : Tiles l' := by
  obtain ⟨h1, h2, h3⟩ := h
  refine ⟨((hp.pairwise_iff (fun hab => Chunk.disjoint_symm hab)).mp h1), ?_, ?_⟩
  · intro c hc
    exact h2 c (hp.mem_iff.mpr hc)
  · intro addr haddr
    obtain ⟨c, hc, hcont⟩ := h3 addr haddr
    exact ⟨c, hp.mem_iff.mp hc, hcont⟩

theorem Tiles.refine {c : Chunk} {rest ps : List Chunk} (h : Tiles (c :: rest))
    (hin : ∀ p ∈ ps, 0 < p.size ∧ c.base ≤ p.base ∧ p.base + p.size ≤ c.base + c.size)
    (hpw : ps.Pairwise Chunk.disjoint)
    (hcov : ∀ addr, c.contains addr → ∃ p ∈ ps, p.contains addr) :
    Tiles (ps ++ rest) := by
  obtain ⟨h1, h2, h3⟩ := h
  rw [List.pairwise_cons] at h1
  obtain ⟨hcrest, hrest⟩ := h1
  have hc0 : 0 < c.size := (h2 c (by simp)).1
  have hcb : c.bounded := (h2 c (by simp)).2
  refine ⟨?_, ?_, ?_⟩
  · rw [List.pairwise_append]
    refine ⟨hpw, hrest, ?_⟩
    intro p hp r hr
    have hpc := hin p hp
    have hcr := hcrest r hr
    unfold Chunk.disjoint at *
    omega
  · intro d hd
    rcases List.mem_append.mp hd with hd | hd
    · have := hin d hd
      unfold Chunk.bounded at *
      exact ⟨this.1, by omega⟩
    · exact h2 d (by simp [hd])
  · intro addr haddr
    obtain ⟨d, hd, hcont⟩ := h3 addr haddr
    rcases List.mem_cons.mp hd with rfl | hd
    · obtain ⟨p, hp, hpcont⟩ := hcov addr hcont
      exact ⟨p, List.mem_append_left _ hp, hpcont⟩
    · exact ⟨d, List.mem_append_right _ hd, hcont⟩

theorem Tiles.merge {c n : Chunk} {rest : List Chunk} (h : Tiles (c :: n :: rest))
    (hadj : n.base = c.base + c.size ∨ c.base = n.base + n.size) :
    Tiles ((⟨min c.base n.base, c.size + n.size⟩ : Chunk) :: rest) := by
  obtain ⟨h1, h2, h3⟩ := h
  rw [List.pairwise_cons] at h1
  obtain ⟨hcall, h1⟩ := h1
  rw [List.pairwise_cons] at h1
  obtain ⟨hnall, hrest⟩ := h1
  have hc0 : 0 < c.size := (h2 c (by simp)).1
  have hn0 : 0 < n.size := (h2 n (by simp)).1
  have hcb : c.bounded := (h2 c (by simp)).2
  have hnb : n.bounded := (h2 n (by simp)).2
  refine ⟨?_, ?_, ?_⟩
  · rw [List.pairwise_cons]
    refine ⟨?_, hrest⟩
    intro r hr
    have hr0 : 0 < r.size := (h2 r (by simp [hr])).1
    have hd1 := hcall r (by simp [hr])
    have hd2 := hnall r hr
    unfold Chunk.disjoint at *
    simp only [] at *
    omega
  · intro d hd
    rcases List.mem_cons.mp hd with rfl | hd
    · unfold Chunk.bounded at *
      refine ⟨by simp; omega, ?_⟩
      simp only []
      omega
    · exact h2 d (by simp [hd])
  · intro addr haddr
    obtain ⟨d, hd, hcont⟩ := h3 addr haddr
    rcases List.mem_cons.mp hd with rfl | hd
    · refine ⟨_, List.mem_cons_self _ _, ?_⟩
      unfold Chunk.contains Chunk.last_byte at *
      simp only [] at *
      omega
    rcases List.mem_cons.mp hd with rfl | hd
    · refine ⟨_, List.mem_cons_self _ _, ?_⟩
      unfold Chunk.contains Chunk.last_byte at *
      simp only [] at *
      omega
    · exact ⟨d, List.mem_cons_of_mem _ hd, hcont⟩

/-! ## Association-list map lemmas -/

theorem mapGet_cons_of_pos {p : Nat × Chunk} {m : List (Nat × Chunk)} {k : Nat}
    (h : p.1 = k) : mapGet (p :: m) k = some p.2 := by
  simp only [mapGet]
  rw [List.find?_cons_of_pos _ (by simp [h])]

theorem mapGet_cons_of_neg {p : Nat × Chunk} {m : List (Nat × Chunk)} {k : Nat}
    (h : p.1 ≠ k) : mapGet (p :: m) k = mapGet m k := by
  simp only [mapGet]
  rw [List.find?_cons_of_neg _ (by simp [h])]

theorem mapGet_insert_self (m : List (Nat × Chunk)) (k : Nat) (v : Chunk) :
    mapGet (mapInsert m k v) k = some v := by
  simp [mapGet, mapInsert, List.find?]

theorem mapGet_insert_ne (m : List (Nat × Chunk)) (k k' : Nat) (v : Chunk)
    (h : k' ≠ k) : mapGet (mapInsert m k v) k' = mapGet m k' := by
  rw [mapInsert, mapGet_cons_of_neg (by simpa using Ne.symm h)]
  induction m with
  | nil => simp
  | cons p m ih =>
    by_cases hp : p.1 = k
    · rw [List.filter_cons_of_neg (by simp [hp])]
      rw [mapGet_cons_of_neg (by rw [hp]; exact Ne.symm h)]
      exact ih
    · rw [List.filter_cons_of_pos (by simp [hp])]
      by_cases hk' : p.1 = k'
      · rw [mapGet_cons_of_pos hk', mapGet_cons_of_pos hk']
      · rw [mapGet_cons_of_neg hk', mapGet_cons_of_neg hk']
        exact ih

theorem mapGet_remove_self (m : List (Nat × Chunk)) (k : Nat) :
    mapGet (mapRemove m k) k = none := by
  simp only [mapGet, mapRemove]
  have : List.find? (fun p => p.1 == k) (m.filter (fun p => p.1 != k)) = none := by
    rw [List.find?_eq_none]
    intro p hp
    simp only [List.mem_filter, bne_iff_ne] at hp
    simp [hp.2]
  rw [this]

theorem mapGet_remove_ne (m : List (Nat × Chunk)) (k k' : Nat) (h : k' ≠ k) :
    mapGet (mapRemove m k) k' = mapGet m k' := by
  simp only [mapRemove]
  induction m with
  | nil => simp
  | cons p m ih =>
    by_cases hp : p.1 = k
    · rw [List.filter_cons_of_neg (by simp [hp])]
      rw [mapGet_cons_of_neg (by rw [hp]; exact Ne.symm h)]
      exact ih
    · rw [List.filter_cons_of_pos (by simp [hp])]
      by_cases hk' : p.1 = k'
      · rw [mapGet_cons_of_pos hk', mapGet_cons_of_pos hk']
      · rw [mapGet_cons_of_neg hk', mapGet_cons_of_neg hk']
        exact ih

theorem mapGet_eq_some_mem {m : List (Nat × Chunk)} {k : Nat} {v : Chunk}
    (h : mapGet m k = some v) : (k, v) ∈ m := by
  induction m with
  | nil => simp [mapGet] at h
  | cons p m ih =>
    by_cases hp : p.1 = k
    · rw [mapGet_cons_of_pos hp] at h
      simp only [Option.some.injEq] at h
      exact List.mem_cons.mpr (Or.inl (by rw [← hp, ← h]))
    · rw [mapGet_cons_of_neg hp] at h
      exact List.mem_cons_of_mem _ (ih h)

theorem mapGet_eq_none_iff {m : List (Nat × Chunk)} {k : Nat} :
    mapGet m k = none ↔ ∀ p ∈ m, p.1 ≠ k := by
  induction m with
  | nil => simp [mapGet]
  | cons p m ih =>
    by_cases hp : p.1 = k
    · rw [mapGet_cons_of_pos hp]
      simp [hp]
    · rw [mapGet_cons_of_neg hp]
      simp [ih, hp]

theorem mapGet_isSome_mem {m : List (Nat × Chunk)} {k : Nat}
    (h : ∃ p ∈ m, p.1 = k) : ∃ v, mapGet m k = some v := by
  cases hg : mapGet m k with
  | none =>
    rw [mapGet_eq_none_iff] at hg
    obtain ⟨p, hp, hk⟩ := h
    exact absurd hk (hg p hp)
  | some v => exact ⟨v, rfl⟩

/-- With unique keys, the map is (as a multiset) the found binding plus
the rest. -/
theorem mapRemove_perm {m : List (Nat × Chunk)} {k : Nat} {v : Chunk}
    (hnd : (m.map Prod.fst).Nodup) (h : mapGet m k = some v) :
    m.Perm ((k, v) :: mapRemove m k) := by
  induction m with
  | nil => simp [mapGet] at h
  | cons p m ih =>
    simp only [List.map_cons, List.nodup_cons] at hnd
    by_cases hp : p.1 = k
    · rw [mapGet_cons_of_pos hp] at h
      simp only [Option.some.injEq] at h
      simp only [mapRemove]
      rw [List.filter_cons_of_neg (by simp [hp])]
      have hfilter : m.filter (fun q => q.1 != k) = m := by
        rw [List.filter_eq_self]
        intro q hq
        simp only [bne_iff_ne]
        intro hqk
        exact hnd.1 (List.mem_map.mpr ⟨q, hq, by rw [hqk, ← hp]⟩)
      rw [hfilter]
      have hpkv : p = (k, v) := by
        obtain ⟨p1, p2⟩ := p
        simp only at hp h
        rw [hp, h]
      rw [hpkv]
    · rw [mapGet_cons_of_neg hp] at h
      have hperm := ih hnd.2 h
      simp only [mapRemove]
      rw [List.filter_cons_of_pos (by simp [hp])]
      exact (hperm.cons p).trans (List.Perm.swap _ _ _)

theorem UsedWF_insert {m : List (Nat × Chunk)} (hwf : UsedWF m) (v : Chunk) :
    UsedWF (mapInsert m v.base v) := by
  obtain ⟨hb, hnd⟩ := hwf
  constructor
  · intro p hp
    rcases List.mem_cons.mp hp with rfl | hp'
    · rfl
    · exact hb p (List.mem_of_mem_filter hp')
  · simp only [mapInsert, List.map_cons, List.nodup_cons]
    constructor
    · intro hmem
      obtain ⟨p, hp, hpk⟩ := List.mem_map.mp hmem
      have := (List.mem_filter.mp hp).2
      simp only [bne_iff_ne] at this
      exact this hpk
    · exact List.Nodup.sublist (List.Sublist.map Prod.fst (List.filter_sublist m)) hnd

theorem UsedWF_remove {m : List (Nat × Chunk)} (hwf : UsedWF m) (k : Nat) :
    UsedWF (mapRemove m k) := by
  obtain ⟨hb, hnd⟩ := hwf
  constructor
  · intro p hp
    exact hb p (List.mem_of_mem_filter hp)
  · exact List.Nodup.sublist (List.Sublist.map Prod.fst (List.filter_sublist m)) hnd

/-- If no binding has key `k`, inserting `(k, v)` just conses it. -/
theorem mapInsert_of_fresh {m : List (Nat × Chunk)} {k : Nat}
    (h : ∀ p ∈ m, p.1 ≠ k) (v : Chunk) : mapInsert m k v = (k, v) :: m := by
  simp only [mapInsert, List.cons.injEq, true_and]
  rw [List.filter_eq_self]
  intro p hp
  simp [h p hp]

/-! ## List utility lemmas -/

theorem perm_cons_eraseIdx {l : List Chunk} {i : Nat} {c : Chunk}
    (h : l[i]? = some c) : l.Perm (c :: l.eraseIdx i) := by
  induction l generalizing i with
  | nil => simp at h
  | cons x t ih =>
    cases i with
    | zero =>
      simp only [List.getElem?_cons_zero, Option.some.injEq] at h
      subst h
      simp [List.eraseIdx]
    | succ i =>
      simp only [List.getElem?_cons_succ] at h
      rw [List.eraseIdx_cons_succ]
      exact ((ih h).cons x).trans (List.Perm.swap _ _ _)

theorem getLastD_concat (l : List Chunk) (x d : Chunk) :
    (l ++ [x]).getLastD d = x := by
  rw [List.getLastD_eq_getLast?, List.getLast?_concat]
  rfl

theorem set_perm_cons_eraseIdx {l : List Chunk} {i : Nat} (x : Chunk)
    (h : i < l.length) : (l.set i x).Perm (x :: l.eraseIdx i) := by
  rw [List.set_eq_take_cons_drop x h, List.eraseIdx_eq_take_drop_succ]
  exact List.perm_middle

theorem swapRemove_perm {l : List Chunk} {i : Nat} (h : i < l.length) :
    (swapRemove l i).Perm (l.eraseIdx i) := by
  induction l using List.reverseRecOn with
  | nil => simp at h
  | append_singleton init x _ih =>
    unfold swapRemove
    rw [getLastD_concat]
    have hlen : (init ++ [x]).length = init.length + 1 := by
      rw [List.length_append, List.length_cons, List.length_nil]
    rcases Nat.lt_or_ge i init.length with hi | hi
    · rw [List.set_append, if_pos hi, List.dropLast_concat,
        List.eraseIdx_append_of_lt_length hi]
      exact (set_perm_cons_eraseIdx x hi).trans
        (List.perm_append_singleton x (init.eraseIdx i)).symm
    · have hieq : i = init.length := by omega
      subst hieq
      rw [List.set_append, if_neg (by omega), Nat.sub_self]
      simp only [List.set_cons_zero]
      rw [List.dropLast_concat]
      rw [List.eraseIdx_append_of_length_le (Nat.le_refl _)]
      simp

/-- Permutations via multiset equality (used for free-list shuffles). -/
theorem perm_ac {l l' : List Chunk} (h : (↑l : Multiset Chunk) = ↑l') : l.Perm l' :=
  Multiset.coe_eq_coe.mp h

/-! ## Trisection -/

theorem trisect_by_spec {c m : Chunk} (hm : 0 < m.size) (hc : 0 < c.size)
    {bf af : Option Chunk} (h : c.trisect_by m = some (bf, af)) :
    (c.base ≤ m.base ∧ m.base + m.size ≤ c.base + c.size)
      ∧ bf = (if c.base < m.base then some ⟨c.base, m.base - c.base⟩ else none)
      ∧ af = (if m.base + m.size < c.base + c.size then
          some ⟨m.base + m.size, c.base + c.size - (m.base + m.size)⟩ else none) := by
  obtain ⟨cb, cs⟩ := c
  obtain ⟨mb, ms⟩ := m
  simp only at hm hc
  dsimp only
  unfold Chunk.trisect_by Chunk.contains Chunk.last_byte at h
  dsimp only at h
  split at h
  case isFalse => exact absurd h (by simp)
  case isTrue hcont =>
    simp only [Option.some.injEq, Prod.mk.injEq] at h
    obtain ⟨hbf, haf⟩ := h
    refine ⟨by omega, ?_, ?_⟩
    · rw [← hbf]
      by_cases hlt : cb < mb
      · rw [if_pos hlt, if_neg (by omega)]
      · rw [if_neg hlt, if_pos (by omega)]
    · rw [← haf]
      by_cases hlt : mb + ms < cb + cs
      · rw [if_pos hlt, if_neg (by omega)]
        simp only [Option.some.injEq, Chunk.mk.injEq]
        omega
      · rw [if_neg hlt, if_pos (by omega)]

theorem trisect_by_eq_none {c m : Chunk} (hm : 0 < m.size) (hc : 0 < c.size)
    (h : c.trisect_by m = none) :
    ¬ (c.base ≤ m.base ∧ m.base + m.size ≤ c.base + c.size) := by
  obtain ⟨cb, cs⟩ := c
  obtain ⟨mb, ms⟩ := m
  simp only at hm hc
  dsimp only
  unfold Chunk.trisect_by Chunk.contains Chunk.last_byte at h
  dsimp only at h
  split at h
  case isTrue hcont => exact absurd h (by simp)
  case isFalse hcont =>
    intro hin
    exact hcont (by omega)

/-- Replacing a tiling chunk `c` by the parts of its trisection by `m`
preserves the tiling. -/
theorem Tiles_trisect {c m : Chunk} {rest : List Chunk} (ht : Tiles (c :: rest))
    (hm : 0 < m.size) {bf af : Option Chunk} (h : c.trisect_by m = some (bf, af)) :
    Tiles ((bf.toList ++ m :: af.toList) ++ rest) := by
  have hc : 0 < c.size := (ht.2.1 c (by simp)).1
  obtain ⟨⟨hin1, hin2⟩, hbf, haf⟩ := trisect_by_spec hm hc h
  subst hbf haf
  apply Tiles.refine ht
  · intro p hp
    simp only [List.mem_append, List.mem_cons] at hp
    rcases hp with hp | hp | hp
    · rcases Nat.lt_or_ge c.base m.base with h1 | h1
      · rw [if_pos h1] at hp
        simp only [Option.toList_some, List.mem_singleton] at hp
        subst hp
        dsimp only
        omega
      · rw [if_neg (by omega)] at hp
        simp at hp
    · subst hp
      exact ⟨hm, hin1, hin2⟩
    · rcases Nat.lt_or_ge (m.base + m.size) (c.base + c.size) with h2 | h2
      · rw [if_pos h2] at hp
        simp only [Option.toList_some, List.mem_singleton] at hp
        subst hp
        dsimp only
        omega
      · rw [if_neg (by omega)] at hp
        simp at hp
  · rcases Nat.lt_or_ge c.base m.base with h1 | h1 <;>
      rcases Nat.lt_or_ge (m.base + m.size) (c.base + c.size) with h2 | h2
    · rw [if_pos h1, if_pos h2]
      simp only [Option.toList_some, List.singleton_append]
      refine List.Pairwise.cons ?_ (List.Pairwise.cons ?_ ?_)
      · intro d hd
        rcases List.mem_cons.mp hd with rfl | hd
        · unfold Chunk.disjoint
          dsimp only
          omega
        · rw [List.mem_singleton] at hd
          subst hd
          unfold Chunk.disjoint
          dsimp only
          omega
      · intro d hd
        rw [List.mem_singleton] at hd
        subst hd
        unfold Chunk.disjoint
        dsimp only
        omega
      · simp
    · rw [if_pos h1, if_neg (by omega)]
      simp only [Option.toList_some, Option.toList_none, List.singleton_append,
        List.append_nil]
      refine List.Pairwise.cons ?_ ?_
      · intro d hd
        rw [List.mem_singleton] at hd
        subst hd
        unfold Chunk.disjoint
        dsimp only
        omega
      · simp
    · rw [if_neg (by omega), if_pos h2]
      simp only [Option.toList_some, Option.toList_none, List.nil_append]
      refine List.Pairwise.cons ?_ ?_
      · intro d hd
        rw [List.mem_singleton] at hd
        subst hd
        unfold Chunk.disjoint
        dsimp only
        omega
      · simp
    · rw [if_neg (by omega), if_neg (by omega)]
      simp
  · intro addr haddr
    rw [Chunk.contains_iff hc] at haddr
    rcases Nat.lt_or_ge addr m.base with h1 | h1
    · refine ⟨⟨c.base, m.base - c.base⟩, ?_, ?_⟩
      · simp only [List.mem_append, List.mem_cons]
        left
        rw [if_pos (by omega)]
        simp
      · rw [Chunk.contains_iff (by dsimp only; omega)]
        dsimp only
        omega
    · rcases Nat.lt_or_ge addr (m.base + m.size) with h2 | h2
      · exact ⟨m, by simp, by rw [Chunk.contains_iff hm]; omega⟩
      · refine ⟨⟨m.base + m.size, c.base + c.size - (m.base + m.size)⟩, ?_, ?_⟩
        · simp only [List.mem_append, List.mem_cons]
          right
          right
          rw [if_pos (by omega)]
          simp
        · rw [Chunk.contains_iff (by dsimp only; omega)]
          dsimp only
          omega

/-! ## The reserve loop -/

theorem reserveLoop_some {chunk : Chunk} :
    ∀ {l pre out : List Chunk}, reserveLoop chunk pre l = some out →
    ∃ l₁ f l₂ bf af, l = l₁ ++ f :: l₂
      ∧ (∀ x ∈ l₁, x.trisect_by chunk = none)
      ∧ f.trisect_by chunk = some (bf, af)
      ∧ out = ((pre ++ (l₁ ++ l₂)) ++ bf.toList ++ af.toList) := by
  intro l
  induction l with
  | nil => intro pre out h; simp [reserveLoop] at h
  | cons c rest ih =>
    intro pre out h
    unfold reserveLoop at h
    cases htr : c.trisect_by chunk with
    | some r =>
      obtain ⟨bf, af⟩ := r
      rw [htr] at h
      simp only [Option.some.injEq] at h
      exact ⟨[], c, rest, bf, af, by simp, by simp, htr, by simp [← h]⟩
    | none =>
      rw [htr] at h
      obtain ⟨l₁, f, l₂, bf, af, hl, hnone, htri, hout⟩ := ih h
      refine ⟨c :: l₁, f, l₂, bf, af, by simp [hl], ?_, htri, ?_⟩
      · intro x hx
        rcases List.mem_cons.mp hx with rfl | hx
        · exact htr
        · exact hnone x hx
      · rw [hout]
        simp

theorem reserveLoop_none {chunk : Chunk} :
    ∀ {l pre : List Chunk}, reserveLoop chunk pre l = none ↔
      ∀ x ∈ l, x.trisect_by chunk = none := by
  intro l
  induction l with
  | nil => simp [reserveLoop]
  | cons c rest ih =>
    intro pre
    unfold reserveLoop
    cases htr : c.trisect_by chunk with
    | some r =>
      obtain ⟨bf, af⟩ := r
      simp only [reduceCtorEq, false_iff, not_forall]
      push_neg
      exact ⟨c, by simp, by simp [htr]⟩
    | none =>
      simp only [ih]
      constructor
      · intro hall x hx
        rcases List.mem_cons.mp hx with rfl | hx
        · exact htr
        · exact hall x hx
      · intro hall x hx
        exact hall x (List.mem_cons_of_mem _ hx)

/-! ## Invariant plumbing -/

theorem AllocInv.claimed {a : Allocator} (h : AllocInv a) : ClaimedInvariant a := by
  obtain ⟨⟨hpw, hsz, hcov⟩, _⟩ := h
  unfold allChunks at hpw
  rw [List.pairwise_append] at hpw
  refine ⟨hpw.1, hpw.2.1, hpw.2.2, ?_, hcov⟩
  intro c hc
  have := (hsz c hc).1
  omega

theorem free_mem_allChunks {a : Allocator} {c : Chunk} (h : c ∈ a.unused_chunks) :
    c ∈ allChunks a := List.mem_append_left _ h

theorem used_mem_allChunks {a : Allocator} {p : Nat × Chunk}
    (h : p ∈ a.heap_used_chunks) : p.2 ∈ allChunks a :=
  List.mem_append_right _ (List.mem_map_of_mem Prod.snd h)

/-- No used-map key lies inside a free chunk (so inserting at such an
address never replaces an existing binding). -/
theorem fresh_key_of_free {a : Allocator} (hInv : AllocInv a) {f : Chunk}
    (hf : f ∈ a.unused_chunks) {b : Nat} (hb : f.contains b) :
    ∀ p ∈ a.heap_used_chunks, p.1 ≠ b := by
  obtain ⟨⟨hpw, hsz, _⟩, hwf, _⟩ := hInv
  intro p hp hpb
  unfold allChunks at hpw
  rw [List.pairwise_append] at hpw
  have hdisj : f.disjoint p.2 :=
    hpw.2.2 f hf p.2 (List.mem_map_of_mem Prod.snd hp)
  have hf0 : 0 < f.size := (hsz f (free_mem_allChunks hf)).1
  have hp0 : 0 < p.2.size := (hsz p.2 (used_mem_allChunks hp)).1
  have hpbase : p.2.base = p.1 := hwf p hp
  have hcontains : p.2.contains b := by
    rw [← hpb, ← hpbase]
    exact Chunk.contains_base hp0
  exact Chunk.not_contains_of_disjoint hdisj hf0 hp0 hb hcontains

/-! ## Preservation of the invariant -/

theorem reserve_preserves {a : Allocator} {c : Chunk} {a' : Allocator}
    (hInv : AllocInv a) (hc0 : 0 < c.size) (h : a.reserve c = .ok () a') :
    AllocInv a' := by
  unfold Allocator.reserve at h
  split at h
  case isTrue => exact absurd h (by simp)
  case isFalse hguard =>
    cases hloop : reserveLoop c [] a.unused_chunks with
    | none => rw [hloop] at h; exact absurd h (by simp)
    | some newFree =>
      rw [hloop] at h
      simp only [OpResult.ok.injEq, true_and] at h
      obtain ⟨l₁, f, l₂, bf, af, hl, hnone, htri, hout⟩ := reserveLoop_some hloop
      have hfmem : f ∈ a.unused_chunks := by rw [hl]; simp
      have hf0 : 0 < f.size := (hInv.1.2.1 f (free_mem_allChunks hfmem)).1
      obtain ⟨⟨hin1, hin2⟩, _, _⟩ := trisect_by_spec hc0 hf0 htri
      have hfb : f.contains c.base := by
        rw [Chunk.contains_iff hf0]
        omega
      have hfresh := fresh_key_of_free hInv hfmem hfb
      have hused : mapInsert a.heap_used_chunks c.base c
          = (c.base, c) :: a.heap_used_chunks := mapInsert_of_fresh hfresh c
      subst h
      constructor
      · have hTa : Tiles (f :: (l₁ ++ l₂ ++ usedChunks a)) := by
          apply hInv.1.perm
          apply perm_ac
          unfold allChunks
          rw [hl]
          simp only [List.nil_append, List.append_nil, ← Multiset.cons_coe,
            ← Multiset.coe_add, ← Multiset.singleton_add, Multiset.coe_nil,
            add_zero, zero_add]
          simp only [add_comm, add_left_comm, add_assoc]
        apply (Tiles_trisect hTa hc0 htri).perm
        apply perm_ac
        unfold allChunks usedChunks
        simp only [hout, hused, List.map_cons]
        simp only [List.nil_append, List.append_nil, ← Multiset.cons_coe,
          ← Multiset.coe_add, ← Multiset.singleton_add, Multiset.coe_nil,
          add_zero, zero_add]
        simp only [add_comm, add_left_comm, add_assoc]
      · exact UsedWF_insert hInv.2 c

/-! ## The allocation scan -/

theorem enum_concat (l : List Chunk) (x : Chunk) :
    (l ++ [x]).enum = l.enum ++ [(l.length, x)] := by
  rw [List.enum_append]
  simp

theorem allocBigger_none_skip {s : Nat} (idx : Nat) {c : Chunk} (h : ¬ s < c.size) :
    allocBigger s idx c none = none := by
  unfold allocBigger
  rw [if_neg h]

theorem allocBigger_none_take {s : Nat} (idx : Nat) {c : Chunk} (h : s < c.size) :
    allocBigger s idx c none = some (idx, c) := by
  unfold allocBigger
  rw [if_pos h]

theorem allocBigger_some_take {s : Nat} (idx : Nat) {c : Chunk} (bi : Nat) (bc : Chunk)
    (h : s < c.size ∧ c.size < bc.size) :
    allocBigger s idx c (some (bi, bc)) = some (idx, c) := by
  dsimp only [allocBigger]
  rw [if_pos h]

theorem allocBigger_some_keep {s : Nat} (idx : Nat) {c : Chunk} (bi : Nat) (bc : Chunk)
    (h : ¬ (s < c.size ∧ c.size < bc.size)) :
    allocBigger s idx c (some (bi, bc)) = some (bi, bc) := by
  dsimp only [allocBigger]
  rw [if_neg h]

theorem allocScan_cons (s idx : Nat) (c : Chunk) (rest : List (Nat × Chunk))
    (big : Option (Nat × Chunk)) :
    allocScan s ((idx, c) :: rest) big
      = if c.size = s then some (idx, c)
        else allocScan s rest (allocBigger s idx c big) := rfl

/-- Master characterization of the candidate scan of `Allocator::alloc`
over the reversed enumeration of the free list, generalized over the
running best-fit accumulator `big` (assumed to hold a strictly larger
chunk at an index past the scanned segment). -/
theorem allocScan_spec (s : Nat) (l : List Chunk) :
    ∀ (big : Option (Nat × Chunk)),
    (∀ bi bc, big = some (bi, bc) → s < bc.size ∧ l.length ≤ bi) →
    ((allocScan s l.enum.reverse big = none ↔ big = none ∧ ∀ c ∈ l, c.size < s)
    ∧ ∀ i c, allocScan s l.enum.reverse big = some (i, c) →
        ((big = some (i, c) ∨ l[i]? = some c)
        ∧ (∀ bi bc, big = some (bi, bc) → c.size = bc.size → (i, c) = (bi, bc))
        ∧ ((c.size = s ∧ l[i]? = some c
              ∧ ∀ j d, i < j → l[j]? = some d → d.size ≠ s)
          ∨ (s < c.size
              ∧ (∀ d ∈ l, d.size ≠ s)
              ∧ (∀ d ∈ l, s < d.size → c.size ≤ d.size)
              ∧ (∀ bi bc, big = some (bi, bc) → c.size ≤ bc.size)
              ∧ ∀ j d, l[j]? = some d → s < d.size → d.size = c.size → j ≤ i)))) := by
  induction l using List.reverseRecOn with
  | nil =>
    intro big hinv
    constructor
    · simp [allocScan]
    · intro i c hscan
      simp only [List.enum_nil, List.reverse_nil, allocScan] at hscan
      have hb := hinv i c hscan
      refine ⟨Or.inl hscan, ?_, Or.inr ⟨hb.1, by simp, by simp, ?_, by simp⟩⟩
      · intro bi bc hbig _
        rw [hscan] at hbig
        exact (Option.some.injEq _ _ ▸ hbig)
      · intro bi bc hbig
        rw [hscan] at hbig
        simp only [Option.some.injEq, Prod.mk.injEq] at hbig
        rw [hbig.2]
  | append_singleton init x ih =>
    intro big hinv
    have hlen : (init ++ [x]).length = init.length + 1 := by
      rw [List.length_append, List.length_cons, List.length_nil]
    rw [enum_concat, List.reverse_append, List.reverse_singleton,
      List.singleton_append, allocScan_cons]
    by_cases hx : x.size = s
    · -- exact fit at the head of the scan
      rw [if_pos hx]
      constructor
      · constructor
        · intro h
          exact absurd h (by simp)
        · intro ⟨_, hall⟩
          exact absurd hx (by have := hall x (by simp); omega)
      · intro i c hic
        simp only [Option.some.injEq, Prod.mk.injEq] at hic
        obtain ⟨rfl, rfl⟩ := hic
        refine ⟨Or.inr (List.getElem?_concat_length _ _), ?_, Or.inl ⟨hx,
          List.getElem?_concat_length _ _, ?_⟩⟩
        · intro bi bc hbig hsz
          have := (hinv bi bc hbig).1
          omega
        · intro j d hj hjd _
          rw [List.getElem?_eq_none (by omega)] at hjd
          exact absurd hjd (by simp)
    · -- head is not an exact fit: the scan continues with updated best fit
      rw [if_neg hx]
      set big' := allocBigger s init.length x big with hbig'
      have hinv' : ∀ bi bc, big' = some (bi, bc) → s < bc.size ∧ init.length ≤ bi := by
        intro bi bc h
        rw [hbig'] at h
        cases big with
        | none =>
          rcases Nat.lt_or_ge s x.size with hlt | hge
          · rw [allocBigger_none_take _ hlt] at h
            simp only [Option.some.injEq, Prod.mk.injEq] at h
            obtain ⟨rfl, rfl⟩ := h
            exact ⟨hlt, Nat.le_refl _⟩
          · rw [allocBigger_none_skip _ (by omega)] at h
            exact absurd h (by simp)
        | some p =>
          obtain ⟨pi, pc⟩ := p
          by_cases hrepl : s < x.size ∧ x.size < pc.size
          · rw [allocBigger_some_take _ _ _ hrepl] at h
            simp only [Option.some.injEq, Prod.mk.injEq] at h
            obtain ⟨rfl, rfl⟩ := h
            exact ⟨hrepl.1, Nat.le_refl _⟩
          · rw [allocBigger_some_keep _ _ _ hrepl] at h
            have := hinv bi bc h
            omega
      obtain ⟨ihnone, ihsome⟩ := ih big' hinv'
      constructor
      · rw [ihnone]
        have hbig'none : big' = none ↔ (big = none ∧ ¬ s < x.size) := by
          rw [hbig']
          cases big with
          | none =>
            rcases Nat.lt_or_ge s x.size with hlt | hge
            · rw [allocBigger_none_take _ hlt]
              simp
              omega
            · rw [allocBigger_none_skip _ (by omega)]
              simp
              omega
          | some p =>
            obtain ⟨pi, pc⟩ := p
            by_cases hrepl : s < x.size ∧ x.size < pc.size
            · rw [allocBigger_some_take _ _ _ hrepl]
              simp
            · rw [allocBigger_some_keep _ _ _ hrepl]
              simp
        rw [hbig'none]
        constructor
        · intro ⟨⟨h1, h2⟩, h3⟩
          refine ⟨h1, ?_⟩
          intro d hd
          rcases List.mem_append.mp hd with hd | hd
          · exact h3 d hd
          · rw [List.mem_singleton] at hd
            subst hd
            omega
        · intro ⟨h1, h2⟩
          have hxlt : x.size < s := h2 x (by simp)
          exact ⟨⟨h1, by omega⟩, fun d hd => h2 d (List.mem_append_left _ hd)⟩
      · intro i c hscan
        obtain ⟨ihB1, ihB2, ihB3⟩ := ihsome i c hscan
        refine ⟨?_, ?_, ?_⟩
        · -- membership
          rcases ihB1 with h | h
          · rw [hbig'] at h
            cases big with
            | none =>
              rcases Nat.lt_or_ge s x.size with hlt | hge
              · rw [allocBigger_none_take _ hlt] at h
                simp only [Option.some.injEq, Prod.mk.injEq] at h
                obtain ⟨rfl, rfl⟩ := h
                exact Or.inr (List.getElem?_concat_length _ _)
              · rw [allocBigger_none_skip _ (by omega)] at h
                exact absurd h (by simp)
            | some p =>
              obtain ⟨pi, pc⟩ := p
              by_cases hrepl : s < x.size ∧ x.size < pc.size
              · rw [allocBigger_some_take _ _ _ hrepl] at h
                simp only [Option.some.injEq, Prod.mk.injEq] at h
                obtain ⟨rfl, rfl⟩ := h
                exact Or.inr (List.getElem?_concat_length _ _)
              · rw [allocBigger_some_keep _ _ _ hrepl] at h
                exact Or.inl h
          · have hlt : i < init.length := by
              by_contra hge
              rw [List.getElem?_eq_none (by omega)] at h
              exact absurd h (by simp)
            exact Or.inr (by rw [List.getElem?_append_left hlt]; exact h)
        · -- result ties with original big in size only if result is big
          intro bi bc hbig hsz
          subst hbig
          by_cases hrepl : s < x.size ∧ x.size < bc.size
          · have hb' : big' = some (init.length, x) := by
              rw [hbig', allocBigger_some_take _ _ _ hrepl]
            rcases ihB3 with hex | hbg
            · have := hinv bi bc rfl
              omega
            · have := hbg.2.2.2.1 init.length x hb'
              omega
          · have hb' : big' = some (bi, bc) := by
              rw [hbig', allocBigger_some_keep _ _ _ hrepl]
            exact ihB2 bi bc hb' hsz
        · -- the choice characterization
          rcases ihB3 with ⟨hex, hgi, hexmax⟩ | ⟨hgt, hnoex, hmin, hbmono, htie⟩
          · -- exact fit found inside init
            have hlt : i < init.length := by
              by_contra hge
              rw [List.getElem?_eq_none (by omega)] at hgi
              exact absurd hgi (by simp)
            refine Or.inl ⟨hex, by rw [List.getElem?_append_left hlt]; exact hgi, ?_⟩
            intro j d hj hjd
            rcases Nat.lt_trichotomy j init.length with hjl | hjl | hjl
            · rw [List.getElem?_append_left hjl] at hjd
              exact hexmax j d hj hjd
            · subst hjl
              rw [List.getElem?_concat_length] at hjd
              simp only [Option.some.injEq] at hjd
              rw [← hjd]
              exact hx
            · rw [List.getElem?_eq_none (by omega)] at hjd
              exact absurd hjd (by simp)
          · -- best fit
            have hxbound : s < x.size → c.size ≤ x.size := by
              intro hds
              cases hbigeq : big with
              | none =>
                have hb' : big' = some (init.length, x) := by
                  rw [hbig', hbigeq, allocBigger_none_take _ hds]
                exact hbmono init.length x hb'
              | some p =>
                obtain ⟨pi, pc⟩ := p
                by_cases hrepl : x.size < pc.size
                · have hb' : big' = some (init.length, x) := by
                    rw [hbig', hbigeq, allocBigger_some_take _ _ _ ⟨hds, hrepl⟩]
                  exact hbmono init.length x hb'
                · have hb' : big' = some (pi, pc) := by
                    rw [hbig', hbigeq, allocBigger_some_keep _ _ _ (by omega)]
                  have := hbmono pi pc hb'
                  omega
            refine Or.inr ⟨hgt, ?_, ?_, ?_, ?_⟩
            · intro d hd
              rcases List.mem_append.mp hd with hd | hd
              · exact hnoex d hd
              · rw [List.mem_singleton] at hd
                subst hd
                exact hx
            · intro d hd hds
              rcases List.mem_append.mp hd with hd | hd
              · exact hmin d hd hds
              · rw [List.mem_singleton] at hd
                subst hd
                exact hxbound hds
            · intro bi bc hbig
              subst hbig
              by_cases hrepl : s < x.size ∧ x.size < bc.size
              · have := hxbound hrepl.1
                omega
              · have hb' : big' = some (bi, bc) := by
                  rw [hbig', allocBigger_some_keep _ _ _ hrepl]
                exact hbmono bi bc hb'
            · intro j d hjd hds hdc
              rcases Nat.lt_trichotomy j init.length with hjl | hjl | hjl
              · rw [List.getElem?_append_left hjl] at hjd
                exact htie j d hjd hds hdc
              · subst hjl
                rw [List.getElem?_concat_length] at hjd
                simp only [Option.some.injEq] at hjd
                subst hjd
                cases hbigeq : big with
                | none =>
                  have hb' : big' = some (init.length, x) := by
                    rw [hbig', hbigeq, allocBigger_none_take _ hds]
                  have := ihB2 init.length x hb' (by omega)
                  simp only [Prod.mk.injEq] at this
                  omega
                | some p =>
                  obtain ⟨pi, pc⟩ := p
                  by_cases hrepl : x.size < pc.size
                  · have hb' : big' = some (init.length, x) := by
                      rw [hbig', hbigeq, allocBigger_some_take _ _ _ ⟨hds, hrepl⟩]
                    have := ihB2 init.length x hb' (by omega)
                    simp only [Prod.mk.injEq] at this
                    omega
                  · have hb' : big' = some (pi, pc) := by
                      rw [hbig', hbigeq, allocBigger_some_keep _ _ _ (by omega)]
                    have hmq := hbmono pi pc hb'
                    have hq := hinv pi pc (by rw [hbigeq])
                    have := ihB2 pi pc hb' (by omega)
                    simp only [Prod.mk.injEq] at this
                    omega
              · rw [List.getElem?_eq_none (by omega)] at hjd
                exact absurd hjd (by simp)

/-! ## The sizing policy -/

theorem align_size_spec {n s : Nat} (h : Allocator.align_size n = some s) :
    n ≤ s ∧ 16 ≤ s ∧ s % 16 = 0 := by
  unfold Allocator.align_size at h
  dsimp only at h
  split at h
  case isTrue hmod =>
    split at h
    case isTrue hlt =>
      simp only [Option.some.injEq] at h
      subst h
      omega
    case isFalse => exact absurd h (by simp)
  case isFalse hmod =>
    simp only [Option.some.injEq] at h
    subst h
    omega

theorem align_size_eq_none {n : Nat} (hn : n < 2 ^ 32) :
    Allocator.align_size n = none ↔ 2 ^ 32 - 16 < n := by
  unfold Allocator.align_size
  dsimp only
  split
  case isTrue hmod =>
    split
    case isTrue hlt =>
      simp only [reduceCtorEq, false_iff]
      omega
    case isFalse hlt =>
      simp only [true_iff]
      omega
  case isFalse hmod =>
    simp only [reduceCtorEq, false_iff]
    omega

theorem alloc_preserves {a : Allocator} {req r : Nat} {a' : Allocator}
    (hInv : AllocInv a) (h : a.alloc req = .ok r a') : AllocInv a' := by
  unfold Allocator.alloc at h
  cases hal : Allocator.align_size req with
  | none => rw [hal] at h; exact absurd h (by simp)
  | some s =>
    rw [hal] at h
    dsimp only at h
    have hs16 : 16 ≤ s := (align_size_spec hal).2.1
    cases hscan : allocScan s a.unused_chunks.enum.reverse none with
    | none => rw [hscan] at h; exact absurd h (by simp)
    | some p =>
      obtain ⟨i, ch⟩ := p
      obtain ⟨hB1, _, hB3⟩ :=
        (allocScan_spec s a.unused_chunks none (by simp)).2 i ch hscan
      have hmem : a.unused_chunks[i]? = some ch := by
        rcases hB1 with hB1 | hB1
        · exact absurd hB1 (by simp)
        · exact hB1
      have hchmem : ch ∈ a.unused_chunks := List.getElem?_mem hmem
      have hch0 : 0 < ch.size := (hInv.1.2.1 ch (free_mem_allChunks hchmem)).1
      have hsle : s ≤ ch.size := by
        rcases hB3 with hex | hbg
        · omega
        · omega
      have hfresh : ∀ p ∈ a.heap_used_chunks, p.1 ≠ ch.base :=
        fresh_key_of_free hInv hchmem (Chunk.contains_base hch0)
      have hperm : (allChunks a).Perm (ch :: (a.unused_chunks.eraseIdx i ++ usedChunks a)) := by
        unfold allChunks
        exact (perm_cons_eraseIdx hmem).append_right _
      rw [hscan] at h
      dsimp only at h
      unfold Allocator.split_chunk at h
      dsimp only at h
      split at h
      case isTrue hlt =>
        simp only [OpResult.ok.injEq] at h
        obtain ⟨hr, ha'⟩ := h
        subst ha'
        constructor
        · have hT : Tiles (([⟨ch.base, s⟩, ⟨ch.base + s, ch.size - s⟩] : List Chunk)
              ++ (a.unused_chunks.eraseIdx i ++ usedChunks a)) :=
            Tiles.refine (hInv.1.perm hperm) ?_ ?_ ?_
          · apply hT.perm
            apply perm_ac
            unfold allChunks usedChunks
            simp only [mapInsert_of_fresh hfresh, List.map_cons]
            simp only [List.nil_append, List.append_nil, ← Multiset.cons_coe,
              ← Multiset.coe_add, ← Multiset.singleton_add, Multiset.coe_nil,
              add_zero, zero_add]
            simp only [add_comm, add_left_comm, add_assoc]
          · intro q hq
            rcases List.mem_cons.mp hq with rfl | hq
            · dsimp only
              omega
            · rw [List.mem_singleton] at hq
              subst hq
              dsimp only
              omega
          · refine List.Pairwise.cons ?_ (by simp)
            intro d hd
            rw [List.mem_singleton] at hd
            subst hd
            unfold Chunk.disjoint
            dsimp only
            omega
          · intro addr haddr
            rw [Chunk.contains_iff hch0] at haddr
            rcases Nat.lt_or_ge addr (ch.base + s) with hlt2 | hlt2
            · refine ⟨⟨ch.base, s⟩, by simp, ?_⟩
              rw [Chunk.contains_iff (by dsimp only; omega)]
              dsimp only
              omega
            · refine ⟨⟨ch.base + s, ch.size - s⟩, by simp, ?_⟩
              rw [Chunk.contains_iff (by dsimp only; omega)]
              dsimp only
              omega
        · exact UsedWF_insert hInv.2 ⟨ch.base, s⟩
      case isFalse hge =>
        split at h
        case isTrue heq =>
          simp only [OpResult.ok.injEq] at h
          obtain ⟨hr, ha'⟩ := h
          subst ha'
          constructor
          · apply (hInv.1.perm hperm).perm
            apply perm_ac
            unfold allChunks usedChunks
            simp only [mapInsert_of_fresh hfresh, List.map_cons]
            simp only [List.nil_append, List.append_nil, ← Multiset.cons_coe,
              ← Multiset.coe_add, ← Multiset.singleton_add, Multiset.coe_nil,
              add_zero, zero_add]
            simp only [add_comm, add_left_comm, add_assoc]
          · exact UsedWF_insert hInv.2 ch
        case isFalse => exact absurd h (by simp)

theorem neighbourTest_iff {ch other : Chunk} (hch : 0 < ch.size) (ho : 0 < other.size) :
    neighbourTest ch true other = true
      ↔ (other.base = ch.base + ch.size ∨ ch.base = other.base + other.size) := by
  unfold neighbourTest Chunk.last_byte
  simp only [Bool.or_eq_true, Bool.and_eq_true, beq_iff_eq, true_and]
  omega

theorem try_combine_none {a : Allocator} {ch : Chunk} {allow : Bool}
    (hfind : a.unused_chunks.findIdx? (neighbourTest ch allow) = none) :
    a.try_combine_with_neighbour ch allow = .ok (ch, false) a := by
  unfold Allocator.try_combine_with_neighbour
  rw [hfind]

theorem try_combine_some_ok {a : Allocator} {ch : Chunk} {allow : Bool} {i : Nat}
    (hfind : a.unused_chunks.findIdx? (neighbourTest ch allow) = some i)
    (hsum : ch.size + (a.unused_chunks.getD i ⟨0, 0⟩).size < 2 ^ 32) :
    a.try_combine_with_neighbour ch allow
      = .ok (⟨min ch.base (a.unused_chunks.getD i ⟨0, 0⟩).base,
            ch.size + (a.unused_chunks.getD i ⟨0, 0⟩).size⟩, true)
          { a with unused_chunks := swapRemove a.unused_chunks i } := by
  unfold Allocator.try_combine_with_neighbour
  rw [hfind]
  dsimp only
  rw [if_pos hsum]

theorem try_combine_some_fatal {a : Allocator} {ch : Chunk} {allow : Bool} {i : Nat}
    (hfind : a.unused_chunks.findIdx? (neighbourTest ch allow) = some i)
    (hsum : ¬ ch.size + (a.unused_chunks.getD i ⟨0, 0⟩).size < 2 ^ 32) :
    a.try_combine_with_neighbour ch allow
      = .fatal { a with unused_chunks := swapRemove a.unused_chunks i } := by
  unfold Allocator.try_combine_with_neighbour
  rw [hfind]
  dsimp only
  rw [if_neg hsum]

theorem free_preserves {a : Allocator} {base r : Nat} {a' : Allocator}
    (hInv : AllocInv a) (h : a.free base = .ok r a') : AllocInv a' := by
  unfold Allocator.free at h
  cases hget : mapGet a.heap_used_chunks base with
  | none => rw [hget] at h; exact absurd h (by simp)
  | some ch =>
    rw [hget] at h
    dsimp only at h
    have hchmem : ch ∈ usedChunks a :=
      List.mem_map_of_mem Prod.snd (mapGet_eq_some_mem hget)
    have hch0 : 0 < ch.size := (hInv.1.2.1 ch (List.mem_append_right _ hchmem)).1
    have husedperm : (List.map Prod.snd a.heap_used_chunks).Perm
        (ch :: List.map Prod.snd (mapRemove a.heap_used_chunks base)) := by
      simpa using (mapRemove_perm hInv.2.2 hget).map Prod.snd
    have hwf' : UsedWF (mapRemove a.heap_used_chunks base) := UsedWF_remove hInv.2 base
    cases hfind : List.findIdx? (neighbourTest ch true) a.unused_chunks with
    | none =>
      rw [show ({ a with heap_used_chunks := mapRemove a.heap_used_chunks base }
            : Allocator).try_combine_with_neighbour ch true
          = .ok (ch, false) { a with heap_used_chunks := mapRemove a.heap_used_chunks base }
        from try_combine_none hfind] at h
      dsimp only at h
      simp only [OpResult.ok.injEq] at h
      obtain ⟨hr, ha'⟩ := h
      subst ha'
      constructor
      · apply hInv.1.perm
        apply perm_ac
        unfold allChunks usedChunks
        dsimp only
        have h1 := Multiset.coe_eq_coe.mpr husedperm
        simp only [List.nil_append, List.append_nil, ← Multiset.cons_coe,
          ← Multiset.coe_add, ← Multiset.singleton_add, Multiset.coe_nil,
          add_zero, zero_add] at h1 ⊢
        rw [h1]
        simp only [add_comm, add_left_comm, add_assoc]
      · exact hwf'
    | some i =>
      obtain ⟨hilen, hpred, _⟩ := List.findIdx?_eq_some_iff_getElem.mp hfind
      have hother : a.unused_chunks.getD i ⟨0, 0⟩ = a.unused_chunks[i] := by
        rw [List.getD_eq_getElem?_getD, List.getElem?_eq_getElem hilen]
        rfl
      have homem : a.unused_chunks[i] ∈ a.unused_chunks := List.getElem_mem _
      have ho0 : 0 < (a.unused_chunks[i]).size :=
        (hInv.1.2.1 _ (free_mem_allChunks homem)).1
      have hadj : (a.unused_chunks[i]).base = ch.base + ch.size
          ∨ ch.base = (a.unused_chunks[i]).base + (a.unused_chunks[i]).size :=
        (neighbourTest_iff hch0 ho0).mp hpred
      have hfind1 : (({ a with heap_used_chunks := mapRemove a.heap_used_chunks base }
          : Allocator)).unused_chunks.findIdx? (neighbourTest ch true) = some i := hfind
      by_cases hsum : ch.size + (a.unused_chunks.getD i ⟨0, 0⟩).size < 2 ^ 32
      · rw [try_combine_some_ok hfind1 hsum] at h
        dsimp only at h
        simp only [OpResult.ok.injEq] at h
        obtain ⟨hr, ha'⟩ := h
        subst ha'
        constructor
        · have hTa : Tiles (ch :: a.unused_chunks[i] ::
              (a.unused_chunks.eraseIdx i
                ++ List.map Prod.snd (mapRemove a.heap_used_chunks base))) := by
            apply hInv.1.perm
            apply perm_ac
            unfold allChunks usedChunks
            have h1 := Multiset.coe_eq_coe.mpr husedperm
            have h2 := Multiset.coe_eq_coe.mpr
              (perm_cons_eraseIdx (List.getElem?_eq_getElem hilen))
            simp only [List.nil_append, List.append_nil, ← Multiset.cons_coe,
              ← Multiset.coe_add, ← Multiset.singleton_add, Multiset.coe_nil,
              add_zero, zero_add] at h1 h2 ⊢
            rw [h1, h2]
            simp only [add_comm, add_left_comm, add_assoc]
          have hT := Tiles.merge hTa hadj
          apply hT.perm
          apply perm_ac
          unfold allChunks usedChunks
          dsimp only
          rw [hother]
          have h3 := Multiset.coe_eq_coe.mpr (swapRemove_perm hilen)
          simp only [List.nil_append, List.append_nil, ← Multiset.cons_coe,
            ← Multiset.coe_add, ← Multiset.singleton_add, Multiset.coe_nil,
            add_zero, zero_add] at h3 ⊢
          rw [h3]
          simp only [add_comm, add_left_comm, add_assoc]
        · exact hwf'
      · rw [try_combine_some_fatal hfind1 hsum] at h
        dsimp only at h
        exact absurd h (by simp)

/-! ## The invariant holds in every reachable state -/

theorem AllocInv_new : AllocInv Allocator.new := by
  refine ⟨⟨by decide, by decide, ?_⟩, by decide, by decide⟩
  intro addr haddr
  have h32 : (2 : Nat) ^ 32 = 4294967296 := by norm_num
  rw [h32] at haddr
  by_cases h1 : addr < 4096
  · refine ⟨⟨0, 4096⟩, by decide, ?_⟩
    unfold Chunk.contains Chunk.last_byte
    dsimp only
    omega
  · by_cases h2 : addr < 4293918720
    · refine ⟨⟨4096, 4293914624⟩, by decide, ?_⟩
      unfold Chunk.contains Chunk.last_byte
      dsimp only
      omega
    · refine ⟨⟨4293918720, 1048576⟩, by decide, ?_⟩
      unfold Chunk.contains Chunk.last_byte
      dsimp only
      omega

theorem runOp_preserves {a : Allocator} {op : AllocOp} {a' : Allocator}
    (hInv : AllocInv a) (h : runOp a op = some a') : AllocInv a' := by
  cases op with
  | reserve b s =>
    unfold runOp at h
    dsimp only at h
    split at h
    case isTrue => exact absurd h (by simp)
    case isFalse hs =>
      cases hres : a.reserve ⟨b, s⟩ with
      | ok v a₂ =>
        cases v
        rw [hres] at h
        dsimp only at h
        simp only [Option.some.injEq] at h
        subst h
        exact reserve_preserves hInv (by dsimp only; omega) hres
      | fatal s₂ =>
        rw [hres] at h
        exact absurd h (by simp)
  | alloc n =>
    unfold runOp at h
    dsimp only at h
    cases hres : a.alloc n with
    | ok v a₂ =>
      rw [hres] at h
      dsimp only at h
      simp only [Option.some.injEq] at h
      subst h
      exact alloc_preserves hInv hres
    | fatal s₂ =>
      rw [hres] at h
      exact absurd h (by simp)
  | free b =>
    unfold runOp at h
    dsimp only at h
    cases hres : a.free b with
    | ok v a₂ =>
      rw [hres] at h
      dsimp only at h
      simp only [Option.some.injEq] at h
      subst h
      exact free_preserves hInv hres
    | fatal s₂ =>
      rw [hres] at h
      exact absurd h (by simp)

theorem runOps_preserves {ops : List AllocOp} :
    ∀ {a a' : Allocator}, AllocInv a → runOps a ops = some a' → AllocInv a' := by
  induction ops with
  | nil =>
    intro a a' hInv h
    simp only [runOps, Option.some.injEq] at h
    subst h
    exact hInv
  | cons op ops ih =>
    intro a a' hInv h
    unfold runOps at h
    cases hop : runOp a op with
    | none => rw [hop] at h; exact absurd h (by simp)
    | some a₁ =>
      rw [hop] at h
      exact ih (runOp_preserves hInv hop) h

/-! ## The claims -/

/-- C1: for every sequence of `reserve`, `alloc` and `free` calls starting
from a newly constructed allocator in which no call fails fatally, after
every call the free regions are pairwise disjoint, the used regions are
pairwise disjoint, every free region is disjoint from every used region,
no region has size 0, and the union of the free and used regions covers
the full 32-bit address space with no gaps. -/
theorem C1_reachable_invariant (ops : List AllocOp) (a : Allocator)
    (h : runOps Allocator.new ops = some a) : ClaimedInvariant a :=
  (runOps_preserves AllocInv_new h).claimed

/-- Witness for C1 at the concrete call sequence `[alloc 10]`. -/
theorem C1_reachable_invariant_witness :
    runOps Allocator.new [AllocOp.alloc 10]
      = some (Allocator.mk [Chunk.mk 4112 4293914608]
          [(4096, Chunk.mk 4096 16), (4293918720, Chunk.mk 4293918720 1048576),
            (0, Chunk.mk 0 4096)])
    ∧ ClaimedInvariant (Allocator.mk [Chunk.mk 4112 4293914608]
          [(4096, Chunk.mk 4096 16), (4293918720, Chunk.mk 4293918720 1048576),
            (0, Chunk.mk 0 4096)]) :=
  ⟨by decide, C1_reachable_invariant [AllocOp.alloc 10] _ (by decide)⟩

/-- C5 counterexample: the sizing policy is not total on u32 byte counts.
At `requested = 2^32 - 1` the 16-byte round-up `size + 16` overflows u32,
so `align_size` fails fatally (with overflow checks; without them it
would wrap and return `0 < requested`): there is no granted size at all,
refuting "pure, total, no failure modes" and the bounds for this input. -/
theorem C5_sizing_counterexample : Allocator.align_size 4294967295 = none := by
  decide

/-- C5 (amended): for every requested byte count up to `2^32 - 16`, the
sizing policy succeeds and its result is at least the request, at least
the minimum size 16, and a multiple of the alignment 16; larger requests
make the 16-byte round-up overflow u32 and fail fatally. -/
theorem C5_sizing_policy (n : Nat) (h : n ≤ 2 ^ 32 - 16) :
    ∃ s, Allocator.align_size n = some s ∧ n ≤ s ∧ 16 ≤ s ∧ s % 16 = 0 := by
  cases hal : Allocator.align_size n with
  | none =>
    rw [align_size_eq_none (by omega)] at hal
    omega
  | some s => exact ⟨s, rfl, align_size_spec hal⟩

/-- Witness for C5 (amended) at the concrete request 10. -/
theorem C5_sizing_policy_witness :
    10 ≤ 2 ^ 32 - 16
    ∧ ∃ s, Allocator.align_size 10 = some s ∧ 10 ≤ s ∧ 16 ≤ s ∧ s % 16 = 0 :=
  ⟨by decide, C5_sizing_policy 10 (by decide)⟩

/-! ## Concrete evaluations mirroring the source module tests -/

example : Allocator.align_size 10 = some 16 := by decide
example : Allocator.align_size 100 = some 112 := by decide
example : Allocator.align_size 16 = some 16 := by decide
example : Allocator.align_size 17 = some 32 := by decide
example : Allocator.align_size 4294967295 = none := by decide
example : Chunk.trisect_by ⟨2, 4⟩ ⟨3, 2⟩ = some (some ⟨2, 1⟩, some ⟨5, 1⟩) := by decide
example : Chunk.trisect_by ⟨2, 4⟩ ⟨2, 2⟩ = some (none, some ⟨4, 2⟩) := by decide
example : Chunk.trisect_by ⟨2, 4⟩ ⟨4, 2⟩ = some (some ⟨2, 2⟩, none) := by decide
example : Chunk.trisect_by ⟨2, 4⟩ ⟨1, 2⟩ = none := by decide
example : Chunk.trisect_by ⟨2, 4⟩ ⟨5, 2⟩ = none := by decide

/-- C2: `reserve(region)` succeeds exactly when one free region fully
contains the requested region (its base and last byte both fall within
that free region's span); on success the containing free region is
removed and replaced by the zero, one or two remainder regions strictly
before and after the requested span, and the requested region is inserted
into the used set keyed by its base.  Otherwise reserve fails fatally
with the state unchanged. -/
theorem C2_reserve (a : Allocator) (c : Chunk) (hc0 : 0 < c.size)
    (hfree : ∀ f ∈ a.unused_chunks, 0 < f.size ∧ f.bounded) :
    ((∃ a', a.reserve c = .ok () a')
        ↔ ∃ f ∈ a.unused_chunks, f.contains c.base ∧ f.contains c.last_byte)
    ∧ ((∀ f ∈ a.unused_chunks, ¬ (f.contains c.base ∧ f.contains c.last_byte))
        → a.reserve c = .fatal a)
    ∧ (∀ a', a.reserve c = .ok () a' →
        ∃ f ∈ a.unused_chunks, (f.contains c.base ∧ f.contains c.last_byte)
          ∧ a'.unused_chunks.Perm
              ((a.unused_chunks.erase f ++ beforeRemainder f c) ++ afterRemainder f c)
          ∧ mapGet a'.heap_used_chunks c.base = some c
          ∧ ∀ k, k ≠ c.base →
              mapGet a'.heap_used_chunks k = mapGet a.heap_used_chunks k) := by
  have hcont_iff : ∀ f ∈ a.unused_chunks,
      ((f.contains c.base ∧ f.contains c.last_byte)
        ↔ (f.base ≤ c.base ∧ c.base + c.size ≤ f.base + f.size)) := by
    intro f hf
    have hf0 := (hfree f hf).1
    unfold Chunk.contains Chunk.last_byte
    omega
  have hmain : ∀ a', a.reserve c = .ok () a' →
      ∃ f ∈ a.unused_chunks, (f.contains c.base ∧ f.contains c.last_byte)
        ∧ a'.unused_chunks.Perm
            ((a.unused_chunks.erase f ++ beforeRemainder f c) ++ afterRemainder f c)
        ∧ mapGet a'.heap_used_chunks c.base = some c
        ∧ ∀ k, k ≠ c.base →
            mapGet a'.heap_used_chunks k = mapGet a.heap_used_chunks k := by
    intro a' h
    unfold Allocator.reserve at h
    split at h
    case isTrue => exact absurd h (by simp)
    case isFalse hguard =>
      cases hloop : reserveLoop c [] a.unused_chunks with
      | none => rw [hloop] at h; exact absurd h (by simp)
      | some newFree =>
        rw [hloop] at h
        simp only [OpResult.ok.injEq, true_and] at h
        obtain ⟨l₁, f, l₂, bf, af, hl, hnone, htri, hout⟩ := reserveLoop_some hloop
        have hfmem : f ∈ a.unused_chunks := by rw [hl]; simp
        have hf0 := (hfree f hfmem).1
        obtain ⟨⟨hin1, hin2⟩, hbf, haf⟩ := trisect_by_spec hc0 hf0 htri
        have hnotin : f ∉ l₁ := by
          intro hmem
          rw [hnone f hmem] at htri
          exact absurd htri (by simp)
        have herase : a.unused_chunks.erase f = l₁ ++ l₂ := by
          rw [hl, List.erase_append_right _ hnotin, List.erase_cons_head]
        refine ⟨f, hfmem, (hcont_iff f hfmem).mpr ⟨hin1, hin2⟩, ?_, ?_, ?_⟩
        · rw [← h]
          dsimp only
          rw [hout, herase]
          have hbf' : bf.toList = beforeRemainder f c := by
            unfold beforeRemainder
            rw [hbf]
            split <;> simp
          have haf' : af.toList = afterRemainder f c := by
            unfold afterRemainder
            rw [haf]
            split <;> simp
          rw [hbf', haf']
          exact List.Perm.refl _
        · rw [← h]
          dsimp only
          exact mapGet_insert_self _ _ _
        · intro k hk
          rw [← h]
          dsimp only
          exact mapGet_insert_ne _ _ _ _ hk
  have hfail : (∀ f ∈ a.unused_chunks, ¬ (f.contains c.base ∧ f.contains c.last_byte))
      → a.reserve c = .fatal a := by
    intro hno
    unfold Allocator.reserve
    split
    case isTrue => rfl
    case isFalse hguard =>
      cases hloop : reserveLoop c [] a.unused_chunks with
      | none => rfl
      | some newFree =>
        obtain ⟨l₁, f, l₂, bf, af, hl, hnone, htri, hout⟩ := reserveLoop_some hloop
        have hfmem : f ∈ a.unused_chunks := by rw [hl]; simp
        have hf0 := (hfree f hfmem).1
        obtain ⟨⟨hin1, hin2⟩, _, _⟩ := trisect_by_spec hc0 hf0 htri
        exact absurd ((hcont_iff f hfmem).mpr ⟨hin1, hin2⟩) (hno f hfmem)
  refine ⟨⟨?_, ?_⟩, hfail, hmain⟩
  · intro ⟨a', ha'⟩
    obtain ⟨f, hf, hcont, _⟩ := hmain a' ha'
    exact ⟨f, hf, hcont⟩
  · intro ⟨f, hf, hcont⟩
    have hf0 := (hfree f hf).1
    have hfb := (hfree f hf).2
    have harith := (hcont_iff f hf).mp hcont
    unfold Allocator.reserve
    rw [if_neg (by unfold Chunk.bounded at hfb; omega)]
    cases hloop : reserveLoop c [] a.unused_chunks with
    | none =>
      rw [reserveLoop_none] at hloop
      have := trisect_by_eq_none hc0 hf0 (hloop f hf)
      exact absurd harith this
    | some newFree => exact ⟨_, rfl⟩

/-- Witness for C2: reserving `[0x2000, 0x200f]` from the fresh allocator
succeeds, since the initial free region fully contains it. -/
theorem C2_reserve_witness :
    ∃ a', Allocator.new.reserve ⟨8192, 16⟩ = OpResult.ok () a' :=
  (C2_reserve Allocator.new ⟨8192, 16⟩ (by decide) (by decide)).1.mpr
    ⟨⟨4096, 4293914624⟩, by decide, by decide⟩

/-- Structure of a successful `alloc`: the granted size is defined, the
scan picked a sufficiently large chunk, and the state was updated by
`split_chunk` in one of its two branches. -/
theorem alloc_ok_inv {a : Allocator} {req r : Nat} {a' : Allocator}
    (h : a.alloc req = .ok r a') :
    ∃ s i ch, Allocator.align_size req = some s
      ∧ allocScan s a.unused_chunks.enum.reverse none = some (i, ch)
      ∧ a.unused_chunks[i]? = some ch
      ∧ s ≤ ch.size ∧ r = ch.base
      ∧ ((s < ch.size
            ∧ a' = Allocator.mk
                (a.unused_chunks.eraseIdx i ++ [⟨ch.base + s, ch.size - s⟩])
                (mapInsert a.heap_used_chunks ch.base ⟨ch.base, s⟩))
        ∨ (ch.size = s
            ∧ a' = Allocator.mk (a.unused_chunks.eraseIdx i)
                (mapInsert a.heap_used_chunks ch.base ch))) := by
  unfold Allocator.alloc at h
  cases hal : Allocator.align_size req with
  | none => rw [hal] at h; exact absurd h (by simp)
  | some s =>
    rw [hal] at h
    dsimp only at h
    cases hscan : allocScan s a.unused_chunks.enum.reverse none with
    | none => rw [hscan] at h; exact absurd h (by simp)
    | some p =>
      obtain ⟨i, ch⟩ := p
      obtain ⟨hB1, _, hB3⟩ :=
        (allocScan_spec s a.unused_chunks none (by simp)).2 i ch hscan
      have hmem : a.unused_chunks[i]? = some ch := by
        rcases hB1 with hB1 | hB1
        · exact absurd hB1 (by simp)
        · exact hB1
      have hsle : s ≤ ch.size := by
        rcases hB3 with hex | hbg <;> omega
      rw [hscan] at h
      dsimp only at h
      unfold Allocator.split_chunk at h
      dsimp only at h
      split at h
      case isTrue hlt =>
        simp only [OpResult.ok.injEq] at h
        obtain ⟨hr, ha'⟩ := h
        exact ⟨s, i, ch, rfl, hscan, hmem, hsle, hr.symm, Or.inl ⟨hlt, ha'.symm⟩⟩
      case isFalse hge =>
        split at h
        case isTrue heq =>
          simp only [OpResult.ok.injEq] at h
          obtain ⟨hr, ha'⟩ := h
          exact ⟨s, i, ch, rfl, hscan, hmem, hsle, hr.symm, Or.inr ⟨by omega, ha'.symm⟩⟩
        case isFalse => exact absurd h (by simp)

/-- A fatal `alloc` leaves the state unchanged: the only panics are the
sizing-policy overflow and the failed candidate search, both of which
happen before any mutation (the `assert_eq!` in `split_chunk` is
unreachable from `alloc` because the scanned candidate is large enough). -/
theorem alloc_fatal_eq {a : Allocator} {req : Nat} {s' : Allocator}
    (h : a.alloc req = .fatal s') : s' = a := by
  unfold Allocator.alloc at h
  cases hal : Allocator.align_size req with
  | none =>
    rw [hal] at h
    simp only [OpResult.fatal.injEq] at h
    exact h.symm
  | some s =>
    rw [hal] at h
    dsimp only at h
    cases hscan : allocScan s a.unused_chunks.enum.reverse none with
    | none =>
      rw [hscan] at h
      simp only [OpResult.fatal.injEq] at h
      exact h.symm
    | some p =>
      obtain ⟨i, ch⟩ := p
      obtain ⟨_, _, hB3⟩ :=
        (allocScan_spec s a.unused_chunks none (by simp)).2 i ch hscan
      have hsle : s ≤ ch.size := by
        rcases hB3 with hex | hbg <;> omega
      rw [hscan] at h
      dsimp only at h
      unfold Allocator.split_chunk at h
      dsimp only at h
      split at h
      case isTrue => exact absurd h (by simp)
      case isFalse hge =>
        rw [if_pos (by omega)] at h
        exact absurd h (by simp)

/-- C6: when the granted size is defined, `alloc` fails fatally exactly
when the free set holds no chunk of exactly the granted size and none
strictly larger; on such a failure the allocator state is unchanged (no
expansion, no compaction, no retry). -/
theorem C6_alloc_oom (a : Allocator) (req s : Nat)
    (hal : Allocator.align_size req = some s) :
    ((∃ s', a.alloc req = .fatal s')
        ↔ ¬ ∃ c ∈ a.unused_chunks, c.size = s ∨ s < c.size)
    ∧ ∀ s', a.alloc req = .fatal s' → s' = a := by
  cases hscan : allocScan s a.unused_chunks.enum.reverse none with
  | none =>
    have hfatal : a.alloc req = .fatal a := by
      unfold Allocator.alloc
      rw [hal]
      dsimp only
      rw [hscan]
    obtain ⟨_, hall⟩ := ((allocScan_spec s a.unused_chunks none (by simp)).1).mp hscan
    constructor
    · constructor
      · intro _ ⟨c, hc, hsz⟩
        have := hall c hc
        omega
      · intro _
        exact ⟨a, hfatal⟩
    · intro s' h
      exact alloc_fatal_eq h
  | some p =>
    obtain ⟨i, ch⟩ := p
    obtain ⟨hB1, _, hB3⟩ :=
      (allocScan_spec s a.unused_chunks none (by simp)).2 i ch hscan
    have hmem : a.unused_chunks[i]? = some ch := by
      rcases hB1 with hB1 | hB1
      · exact absurd hB1 (by simp)
      · exact hB1
    have hsle : s ≤ ch.size := by
      rcases hB3 with hex | hbg <;> omega
    have hok : ∀ s', a.alloc req ≠ .fatal s' := by
      intro s' hcontra
      unfold Allocator.alloc at hcontra
      rw [hal] at hcontra
      dsimp only at hcontra
      rw [hscan] at hcontra
      dsimp only at hcontra
      unfold Allocator.split_chunk at hcontra
      dsimp only at hcontra
      split at hcontra
      case isTrue => exact absurd hcontra (by simp)
      case isFalse hge =>
        rw [if_pos (by omega)] at hcontra
        exact absurd hcontra (by simp)
    constructor
    · constructor
      · intro ⟨s', h⟩
        exact absurd h (hok s')
      · intro hno
        exact absurd ⟨ch, List.getElem?_mem hmem, by omega⟩ hno
    · intro s' h
      exact alloc_fatal_eq h

/-- Witness for C6: with an empty free list, `alloc 10` (granted size 16)
fails fatally and leaves the state unchanged. -/
theorem C6_alloc_oom_witness :
    Allocator.align_size 10 = some 16
    ∧ ((∃ s', (Allocator.mk [] []).alloc 10 = .fatal s')
        ↔ ¬ ∃ c ∈ (Allocator.mk [] []).unused_chunks, c.size = 16 ∨ 16 < c.size) :=
  ⟨by decide, (C6_alloc_oom (Allocator.mk [] []) 10 16 (by decide)).1⟩

/-- C9: if `alloc` returns `base`, an immediately following
`find_allocated_chunk base` returns a chunk whose size is exactly the
granted size `align_size req` (and whose base is `base`). -/
theorem C9_find_after_alloc (a : Allocator) (req s r : Nat) (a' : Allocator)
    (hal : Allocator.align_size req = some s) (h : a.alloc req = .ok r a') :
    a'.find_allocated_chunk r = .ok (Chunk.mk r s) a' := by
  obtain ⟨s₂, i, ch, hal₂, hscan, hmem, hsle, hr, hsplit⟩ := alloc_ok_inv h
  rw [hal] at hal₂
  simp only [Option.some.injEq] at hal₂
  subst hal₂
  subst hr
  unfold Allocator.find_allocated_chunk
  rcases hsplit with ⟨hlt, ha'⟩ | ⟨heq, ha'⟩
  · subst ha'
    rw [show mapGet (mapInsert a.heap_used_chunks ch.base ⟨ch.base, s⟩) ch.base
        = some ⟨ch.base, s⟩ from mapGet_insert_self _ _ _]
  · subst ha'
    rw [show mapGet (mapInsert a.heap_used_chunks ch.base ch) ch.base
        = some ch from mapGet_insert_self _ _ _]
    obtain ⟨cb, cs⟩ := ch
    simp only at heq
    subst heq
    rfl

/-- Witness for C9 at `alloc 10` on the fresh allocator. -/
theorem C9_find_after_alloc_witness :
    (Allocator.mk [Chunk.mk 4112 4293914608]
        [(4096, Chunk.mk 4096 16), (4293918720, Chunk.mk 4293918720 1048576),
          (0, Chunk.mk 0 4096)]).find_allocated_chunk 4096
      = .ok (Chunk.mk 4096 16)
          (Allocator.mk [Chunk.mk 4112 4293914608]
            [(4096, Chunk.mk 4096 16), (4293918720, Chunk.mk 4293918720 1048576),
              (0, Chunk.mk 0 4096)]) :=
  C9_find_after_alloc Allocator.new 10 16 4096 _ (by decide) (by decide)

/-- C3: when the granted size is defined and at least one candidate
exists, `alloc` chooses, scanning the free list in reverse insertion
order, the first chunk with exactly the granted size — otherwise, with no
exact fit anywhere, a strictly larger chunk of minimal size.  It returns
the chosen chunk's base; a strictly larger chunk is split, carving a used
chunk of exactly the granted size at its base and pushing the leftover
rump back on the free list, while an exact fit moves wholesale. -/
theorem C3_alloc_choice (a : Allocator) (req s : Nat)
    (hal : Allocator.align_size req = some s)
    (hcand : ∃ c ∈ a.unused_chunks, s ≤ c.size) :
    ∃ i ch a', a.unused_chunks[i]? = some ch
      ∧ ((ch.size = s
            ∧ ∀ j d, i < j → a.unused_chunks[j]? = some d → d.size ≠ s)
        ∨ ((∀ d ∈ a.unused_chunks, d.size ≠ s)
            ∧ s < ch.size
            ∧ ∀ d ∈ a.unused_chunks, s < d.size → ch.size ≤ d.size))
      ∧ a.alloc req = .ok ch.base a'
      ∧ mapGet a'.heap_used_chunks ch.base = some (Chunk.mk ch.base s)
      ∧ (s < ch.size → a'.unused_chunks
          = a.unused_chunks.eraseIdx i ++ [Chunk.mk (ch.base + s) (ch.size - s)])
      ∧ (ch.size = s → a'.unused_chunks = a.unused_chunks.eraseIdx i) := by
  cases hscan : allocScan s a.unused_chunks.enum.reverse none with
  | none =>
    obtain ⟨_, hall⟩ := ((allocScan_spec s a.unused_chunks none (by simp)).1).mp hscan
    obtain ⟨c, hc, hsz⟩ := hcand
    have := hall c hc
    omega
  | some p =>
    obtain ⟨i, ch⟩ := p
    obtain ⟨hB1, _, hB3⟩ :=
      (allocScan_spec s a.unused_chunks none (by simp)).2 i ch hscan
    have hmem : a.unused_chunks[i]? = some ch := by
      rcases hB1 with hB1 | hB1
      · exact absurd hB1 (by simp)
      · exact hB1
    have hsle : s ≤ ch.size := by
      rcases hB3 with hex | hbg <;> omega
    have hchoice : (ch.size = s
          ∧ ∀ j d, i < j → a.unused_chunks[j]? = some d → d.size ≠ s)
        ∨ ((∀ d ∈ a.unused_chunks, d.size ≠ s)
            ∧ s < ch.size
            ∧ ∀ d ∈ a.unused_chunks, s < d.size → ch.size ≤ d.size) := by
      rcases hB3 with ⟨h1, _, h3⟩ | ⟨h1, h2, h3, _, _⟩
      · exact Or.inl ⟨h1, h3⟩
      · exact Or.inr ⟨h2, h1, h3⟩
    -- run the allocation
    have halloc : a.alloc req
        = Allocator.split_chunk
            { a with unused_chunks := a.unused_chunks.eraseIdx i } s ch := by
      unfold Allocator.alloc
      rw [hal]
      dsimp only
      rw [hscan]
    rcases Nat.lt_or_ge s ch.size with hlt | hge
    · refine ⟨i, ch,
        Allocator.mk (a.unused_chunks.eraseIdx i ++ [⟨ch.base + s, ch.size - s⟩])
          (mapInsert a.heap_used_chunks ch.base ⟨ch.base, s⟩),
        hmem, hchoice, ?_, ?_, ?_, ?_⟩
      · rw [halloc]
        unfold Allocator.split_chunk
        dsimp only
        rw [if_pos hlt]
      · exact mapGet_insert_self _ _ _
      · intro _
        rfl
      · intro heq
        omega
    · have heq : ch.size = s := by omega
      refine ⟨i, ch,
        Allocator.mk (a.unused_chunks.eraseIdx i)
          (mapInsert a.heap_used_chunks ch.base ch),
        hmem, hchoice, ?_, ?_, ?_, ?_⟩
      · rw [halloc]
        unfold Allocator.split_chunk
        dsimp only
        rw [if_neg (by omega), if_pos (by omega)]
      · rw [mapGet_insert_self]
        obtain ⟨cb, cs⟩ := ch
        simp only at heq
        rw [heq]
      · intro hlt
        omega
      · intro _
        rfl

/-- Witness for C3 at `alloc 10` on the fresh allocator. -/
theorem C3_alloc_choice_witness :
    ∃ (i : Nat) (ch : Chunk) (a' : Allocator),
      Allocator.new.unused_chunks[i]? = some ch
      ∧ ((ch.size = 16
            ∧ ∀ j d, i < j → Allocator.new.unused_chunks[j]? = some d → d.size ≠ 16)
        ∨ ((∀ d ∈ Allocator.new.unused_chunks, d.size ≠ 16)
            ∧ 16 < ch.size
            ∧ ∀ d ∈ Allocator.new.unused_chunks, 16 < d.size → ch.size ≤ d.size))
      ∧ Allocator.new.alloc 10 = .ok ch.base a'
      ∧ mapGet a'.heap_used_chunks ch.base = some (Chunk.mk ch.base 16)
      ∧ (16 < ch.size → a'.unused_chunks
          = Allocator.new.unused_chunks.eraseIdx i
              ++ [Chunk.mk (ch.base + 16) (ch.size - 16)])
      ∧ (ch.size = 16 → a'.unused_chunks = Allocator.new.unused_chunks.eraseIdx i) :=
  C3_alloc_choice Allocator.new 10 16 (by decide)
    ⟨⟨4096, 4293914624⟩, by decide, by decide⟩

/-- C10: with no exact fit in the free list, when `alloc` succeeds the
chosen chunk is a strictly-larger chunk of minimal size, and among
candidates tied at that minimal size it is the one stored at the highest
index of the free list (the most recently added): the best-fit comparison
replaces the running candidate only on a strictly smaller size while the
scan runs from the end of the list. -/
theorem C10_alloc_tiebreak (a : Allocator) (req s r : Nat) (a' : Allocator)
    (hal : Allocator.align_size req = some s)
    (hnoexact : ∀ c ∈ a.unused_chunks, c.size ≠ s)
    (h : a.alloc req = .ok r a') :
    ∃ (i : Nat) (ch : Chunk), a.unused_chunks[i]? = some ch ∧ r = ch.base ∧ s < ch.size
      ∧ (∀ d ∈ a.unused_chunks, s < d.size → ch.size ≤ d.size)
      ∧ ∀ j d, a.unused_chunks[j]? = some d → s < d.size → d.size = ch.size → j ≤ i := by
  obtain ⟨s₂, i, ch, hal₂, hscan, hmem, hsle, hr, _⟩ := alloc_ok_inv h
  rw [hal] at hal₂
  simp only [Option.some.injEq] at hal₂
  subst hal₂
  obtain ⟨_, _, hB3⟩ :=
    (allocScan_spec s a.unused_chunks none (by simp)).2 i ch hscan
  rcases hB3 with ⟨hex, hgi, _⟩ | ⟨hgt, _, hmin, _, htie⟩
  · exact absurd hex (hnoexact ch (List.getElem?_mem hgi))
  · exact ⟨i, ch, hmem, hr, hgt, hmin, htie⟩

/-- Witness for C10: two free chunks of size 32 at indices 0 and 1; the
tied best fit chosen for a 16-byte request is the one at index 1. -/
theorem C10_alloc_tiebreak_witness :
    ∃ (i : Nat) (ch : Chunk),
      (Allocator.mk [Chunk.mk 100 32, Chunk.mk 200 32] []).unused_chunks[i]?
        = some ch
      ∧ 200 = ch.base ∧ 16 < ch.size
      ∧ (∀ d ∈ (Allocator.mk [Chunk.mk 100 32, Chunk.mk 200 32] []).unused_chunks,
          16 < d.size → ch.size ≤ d.size)
      ∧ ∀ j d, (Allocator.mk [Chunk.mk 100 32, Chunk.mk 200 32] []).unused_chunks[j]?
            = some d → 16 < d.size → d.size = ch.size → j ≤ i :=
  C10_alloc_tiebreak (Allocator.mk [Chunk.mk 100 32, Chunk.mk 200 32] [])
    16 16 200
    (Allocator.mk [Chunk.mk 100 32, Chunk.mk 216 16] [(200, Chunk.mk 200 16)])
    (by decide) (by decide) (by decide)

/-! ## Structure of `free` -/

theorem free_not_key {a : Allocator} {b : Nat}
    (h : mapGet a.heap_used_chunks b = none) : a.free b = .fatal a := by
  unfold Allocator.free
  rw [h]

theorem find_not_key {a : Allocator} {b : Nat}
    (h : mapGet a.heap_used_chunks b = none) :
    a.find_allocated_chunk b = .fatal a := by
  unfold Allocator.find_allocated_chunk
  rw [h]

theorem neighbourTest_true_iff (c n : Chunk) :
    neighbourTest c true n = true ↔ AdjacentTo c n := by
  unfold neighbourTest AdjacentTo
  simp

/-- Erasing the element found by `findIdx?` (the first one satisfying the
predicate) removes exactly that position. -/
theorem erase_of_first {l : List Chunk} {p : Chunk → Bool} :
    ∀ {i : Nat} (hi : i < l.length), p l[i] = true →
      (∀ j, j < i → ∀ (hj : j < l.length), p l[j] = false) →
      l.erase l[i] = l.eraseIdx i := by
  induction l with
  | nil => intro i hi; simp at hi
  | cons x t ih =>
    intro i hi hp hmin
    cases i with
    | zero =>
      simp only [List.getElem_cons_zero]
      rw [List.erase_cons_head]
      rfl
    | succ j =>
      have hx : p x = false := hmin 0 (by omega) (by simp)
      have hj : j < t.length := by
        simp only [List.length_cons] at hi
        omega
      rw [List.getElem_cons_succ]
      have hne : ¬ (x == t[j]) = true := by
        intro heq
        rw [beq_iff_eq] at heq
        rw [heq] at hx
        rw [List.getElem_cons_succ] at hp
        rw [hx] at hp
        exact absurd hp (by simp)
      rw [List.erase_cons_tail hne, List.eraseIdx_cons_succ]
      congr 1
      apply ih hj
      · rw [List.getElem_cons_succ] at hp
        exact hp
      · intro k hk hkt
        have := hmin (k + 1) (by omega) (by simp; omega)
        rw [List.getElem_cons_succ] at this
        exact this

/-- A successful `free` with the binding present: either no free
neighbour exists and the chunk is pushed as is, or the first adjacent
free chunk is merged with it. -/
theorem free_ok_spec {a : Allocator} {b : Nat} {c : Chunk}
    (hget : mapGet a.heap_used_chunks b = some c)
    (hov : ∀ n ∈ a.unused_chunks, neighbourTest c true n = true
      → c.size + n.size < 2 ^ 32) :
    (a.free b = .ok c.size
          (Allocator.mk (a.unused_chunks ++ [c]) (mapRemove a.heap_used_chunks b))
        ∧ ∀ n ∈ a.unused_chunks, neighbourTest c true n = false)
    ∨ (∃ n ∈ a.unused_chunks, neighbourTest c true n = true
        ∧ ∃ a', a.free b = .ok c.size a'
          ∧ a'.heap_used_chunks = mapRemove a.heap_used_chunks b
          ∧ a'.unused_chunks.Perm
              (a.unused_chunks.erase n
                ++ [Chunk.mk (min c.base n.base) (c.size + n.size)])) := by
  unfold Allocator.free
  rw [hget]
  dsimp only
  cases hfind : List.findIdx? (neighbourTest c true) a.unused_chunks with
  | none =>
    left
    constructor
    · rw [show ({ a with heap_used_chunks := mapRemove a.heap_used_chunks b }
            : Allocator).try_combine_with_neighbour c true
          = .ok (c, false) { a with heap_used_chunks := mapRemove a.heap_used_chunks b }
        from try_combine_none hfind]
    · exact List.findIdx?_eq_none_iff.mp hfind
  | some i =>
    right
    obtain ⟨hilen, hpred, hmin⟩ := List.findIdx?_eq_some_iff_getElem.mp hfind
    have hother : a.unused_chunks.getD i ⟨0, 0⟩ = a.unused_chunks[i] := by
      rw [List.getD_eq_getElem?_getD, List.getElem?_eq_getElem hilen]
      rfl
    have hsum : c.size + (a.unused_chunks.getD i ⟨0, 0⟩).size < 2 ^ 32 := by
      rw [hother]
      exact hov _ (List.getElem_mem _) hpred
    have hfind1 : (({ a with heap_used_chunks := mapRemove a.heap_used_chunks b }
        : Allocator)).unused_chunks.findIdx? (neighbourTest c true) = some i := hfind
    refine ⟨a.unused_chunks[i], List.getElem_mem _, hpred,
      Allocator.mk (swapRemove a.unused_chunks i
          ++ [Chunk.mk (min c.base a.unused_chunks[i].base)
                (c.size + a.unused_chunks[i].size)])
        (mapRemove a.heap_used_chunks b), ?_, rfl, ?_⟩
    · rw [try_combine_some_ok hfind1 hsum]
      dsimp only
      rw [hother]
    · dsimp only
      rw [erase_of_first hilen hpred (fun j hj hjt => by
        have := hmin j hj
        simpa using this)]
      exact (swapRemove_perm hilen).append_right _

theorem free_ok_used {a : Allocator} {b r : Nat} {a' : Allocator}
    (h : a.free b = .ok r a') :
    a'.heap_used_chunks = mapRemove a.heap_used_chunks b ∧
      ∃ c, mapGet a.heap_used_chunks b = some c ∧ r = c.size := by
  unfold Allocator.free at h
  cases hget : mapGet a.heap_used_chunks b with
  | none => rw [hget] at h; exact absurd h (by simp)
  | some c =>
    rw [hget] at h
    dsimp only at h
    cases hfind : List.findIdx? (neighbourTest c true) a.unused_chunks with
    | none =>
      rw [show ({ a with heap_used_chunks := mapRemove a.heap_used_chunks b }
            : Allocator).try_combine_with_neighbour c true
          = .ok (c, false) { a with heap_used_chunks := mapRemove a.heap_used_chunks b }
        from try_combine_none hfind] at h
      dsimp only at h
      simp only [OpResult.ok.injEq] at h
      exact ⟨by rw [← h.2], c, rfl, h.1.symm⟩
    | some i =>
      have hfind1 : (({ a with heap_used_chunks := mapRemove a.heap_used_chunks b }
          : Allocator)).unused_chunks.findIdx? (neighbourTest c true) = some i := hfind
      by_cases hsum : c.size + (a.unused_chunks.getD i ⟨0, 0⟩).size < 2 ^ 32
      · rw [try_combine_some_ok hfind1 hsum] at h
        dsimp only at h
        simp only [OpResult.ok.injEq] at h
        exact ⟨by rw [← h.2], c, rfl, h.1.symm⟩
      · rw [try_combine_some_fatal hfind1 hsum] at h
        exact absurd h (by simp)

/-- C4 counterexample: after `free 0` coalesces the guard page with the
initial free region, the stack base is still a key of the used set, yet
`free` of it fails fatally (the coalesced size would be 2^32, which
overflows the u32 chunk size), instead of removing the binding and
returning the freed size as the claim states for every key. -/
theorem C4_free_counterexample :
    runOps Allocator.new [AllocOp.free 0]
      = some (Allocator.mk [Chunk.mk 0 4293918720]
          [(4293918720, Chunk.mk 4293918720 1048576)])
    ∧ mapGet [(4293918720, Chunk.mk 4293918720 1048576)] 4293918720
        = some (Chunk.mk 4293918720 1048576)
    ∧ (Allocator.mk [Chunk.mk 0 4293918720]
        [(4293918720, Chunk.mk 4293918720 1048576)]).free 4293918720
      = .fatal (Allocator.mk [] []) := by
  decide

/-- C4 (amended): for every base bound in the used set whose chunk,
merged with an adjacent free chunk, would not span the full 2^32 space,
`free` removes that binding (leaving the others), merges the chunk with
at most one adjacent free chunk — even when both sides are free only the
first found neighbour is merged and the other remains — pushes the
(possibly merged) chunk to the free set, and returns the size of the
originally freed chunk.  In the excluded corner case the merge overflows
the u32 size and `free` fails fatally. -/
theorem C4_free (a : Allocator) (b : Nat) (c : Chunk)
    (hget : mapGet a.heap_used_chunks b = some c)
    (hov : ∀ n ∈ a.unused_chunks, AdjacentTo c n → c.size + n.size < 2 ^ 32) :
    ∃ a', a.free b = .ok c.size a'
      ∧ mapGet a'.heap_used_chunks b = none
      ∧ (∀ k, k ≠ b → mapGet a'.heap_used_chunks k = mapGet a.heap_used_chunks k)
      ∧ (((∀ n ∈ a.unused_chunks, ¬ AdjacentTo c n)
            ∧ a'.unused_chunks = a.unused_chunks ++ [c])
        ∨ ∃ n ∈ a.unused_chunks, AdjacentTo c n
            ∧ a'.unused_chunks.Perm
                (a.unused_chunks.erase n
                  ++ [Chunk.mk (min c.base n.base) (c.size + n.size)])) := by
  have hov' : ∀ n ∈ a.unused_chunks, neighbourTest c true n = true
      → c.size + n.size < 2 ^ 32 := by
    intro n hn ht
    exact hov n hn ((neighbourTest_true_iff c n).mp ht)
  rcases free_ok_spec hget hov' with ⟨hok, hnone⟩ | ⟨n, hn, ht, a', hok, hused, hperm⟩
  · refine ⟨_, hok, ?_, ?_, Or.inl ⟨?_, rfl⟩⟩
    · exact mapGet_remove_self _ _
    · intro k hk
      exact mapGet_remove_ne _ _ _ hk
    · intro n hn hadj
      have h1 := hnone n hn
      have h2 := (neighbourTest_true_iff c n).mpr hadj
      rw [h1] at h2
      exact absurd h2 (by simp)
  · refine ⟨a', hok, ?_, ?_, Or.inr ⟨n, hn, (neighbourTest_true_iff c n).mp ht, hperm⟩⟩
    · rw [hused]
      exact mapGet_remove_self _ _
    · intro k hk
      rw [hused]
      exact mapGet_remove_ne _ _ _ hk

/-- Witness for C4 (amended): freeing base 5 from a state with one used
chunk and no free chunks pushes the chunk and returns its size. -/
theorem C4_free_witness :
    ∃ a', (Allocator.mk [] [(5, Chunk.mk 5 7)]).free 5
        = .ok (Chunk.mk 5 7).size a'
      ∧ mapGet a'.heap_used_chunks 5 = none
      ∧ (∀ k, k ≠ 5 → mapGet a'.heap_used_chunks k
          = mapGet (Allocator.mk [] [(5, Chunk.mk 5 7)]).heap_used_chunks k)
      ∧ (((∀ n ∈ (Allocator.mk [] [(5, Chunk.mk 5 7)]).unused_chunks,
              ¬ AdjacentTo (Chunk.mk 5 7) n)
            ∧ a'.unused_chunks
              = (Allocator.mk [] [(5, Chunk.mk 5 7)]).unused_chunks ++ [Chunk.mk 5 7])
        ∨ ∃ n ∈ (Allocator.mk [] [(5, Chunk.mk 5 7)]).unused_chunks,
            AdjacentTo (Chunk.mk 5 7) n
            ∧ a'.unused_chunks.Perm
                ((Allocator.mk [] [(5, Chunk.mk 5 7)]).unused_chunks.erase n
                  ++ [Chunk.mk (min (Chunk.mk 5 7).base n.base)
                        ((Chunk.mk 5 7).size + n.size)])) :=
  C4_free (Allocator.mk [] [(5, Chunk.mk 5 7)]) 5 (Chunk.mk 5 7)
    (by decide) (by decide)

/-- C7 counterexample: `free` can fail fatally on a base that IS a key of
the used set (merge-overflow corner reached by `free 0` first), refuting
"fails exactly when base is not a key" for `free`; the same base is
perfectly findable right before. -/
theorem C7_invalid_reference_counterexample :
    runOps Allocator.new [AllocOp.free 0]
      = some (Allocator.mk [Chunk.mk 0 4293918720]
          [(4293918720, Chunk.mk 4293918720 1048576)])
    ∧ (Allocator.mk [Chunk.mk 0 4293918720]
        [(4293918720, Chunk.mk 4293918720 1048576)]).find_allocated_chunk 4293918720
      = .ok (Chunk.mk 4293918720 1048576)
          (Allocator.mk [Chunk.mk 0 4293918720]
            [(4293918720, Chunk.mk 4293918720 1048576)])
    ∧ (Allocator.mk [Chunk.mk 0 4293918720]
        [(4293918720, Chunk.mk 4293918720 1048576)]).free 4293918720
      = .fatal (Allocator.mk [] []) := by
  decide

/-- C7 (amended): `find_allocated_chunk` fails fatally exactly when the
base is not a key of the used set; `free` fails fatally whenever the base
is not a key, and succeeds on a key provided the coalescing merge does
not overflow (in the overflow corner `free` fails fatally even on a
key); after a successful `free`, freeing or looking up the same base
again without re-allocation is fatal. -/
theorem C7_invalid_reference (a : Allocator) (b : Nat) :
    (a.find_allocated_chunk b = .fatal a ↔ mapGet a.heap_used_chunks b = none)
    ∧ (mapGet a.heap_used_chunks b = none → a.free b = .fatal a)
    ∧ (∀ c, mapGet a.heap_used_chunks b = some c →
        (∀ n ∈ a.unused_chunks, AdjacentTo c n → c.size + n.size < 2 ^ 32) →
        ∃ a', a.free b = .ok c.size a')
    ∧ (∀ r a', a.free b = .ok r a' →
        a'.free b = .fatal a' ∧ a'.find_allocated_chunk b = .fatal a') := by
  refine ⟨?_, fun h => free_not_key h, ?_, ?_⟩
  · constructor
    · intro h
      cases hget : mapGet a.heap_used_chunks b with
      | none => rfl
      | some c =>
        unfold Allocator.find_allocated_chunk at h
        rw [hget] at h
        exact absurd h (by simp)
    · intro h
      exact find_not_key h
  · intro c hget hov
    have hov' : ∀ n ∈ a.unused_chunks, neighbourTest c true n = true
        → c.size + n.size < 2 ^ 32 := by
      intro n hn ht
      exact hov n hn ((neighbourTest_true_iff c n).mp ht)
    rcases free_ok_spec hget hov' with ⟨hok, _⟩ | ⟨n, hn, ht, a', hok, _, _⟩
    · exact ⟨_, hok⟩
    · exact ⟨a', hok⟩
  · intro r a' h
    obtain ⟨hused, _⟩ := free_ok_used h
    have hnone : mapGet a'.heap_used_chunks b = none := by
      rw [hused]
      exact mapGet_remove_self _ _
    exact ⟨free_not_key hnone, find_not_key hnone⟩

/-- Witness for C7 (amended) at base 42 of the empty allocator. -/
theorem C7_invalid_reference_witness :
    (Allocator.mk [] []).find_allocated_chunk 42 = .fatal (Allocator.mk [] [])
    ∧ (Allocator.mk [] []).free 42 = .fatal (Allocator.mk [] []) := by
  have h := C7_invalid_reference (Allocator.mk [] []) 42
  exact ⟨h.1.mpr (by decide), h.2.1 (by decide)⟩

/-- C8 counterexample: `free` of the stack base in the merge-overflow
corner fails fatally AFTER removing the binding from the used set and the
neighbour from the free list: the panic-time state is not the pre-call
state, refuting "no partial-failure state" as stated.  The state is
reachable (`free 0` from a fresh allocator). -/
theorem C8_atomicity_counterexample :
    runOps Allocator.new [AllocOp.free 0]
      = some (Allocator.mk [Chunk.mk 0 4293918720]
          [(4293918720, Chunk.mk 4293918720 1048576)])
    ∧ (Allocator.mk [Chunk.mk 0 4293918720]
        [(4293918720, Chunk.mk 4293918720 1048576)]).free 4293918720
      = .fatal (Allocator.mk [] [])
    ∧ Allocator.mk [] []
      ≠ Allocator.mk [Chunk.mk 0 4293918720]
          [(4293918720, Chunk.mk 4293918720 1048576)] := by
  decide

/-- C8 (amended): `reserve`, `alloc` and `find_allocated_chunk` are
atomic — a fatal failure leaves the allocator exactly as before the call
— and so is `free` when it fails because the base is not a key of the
used set; only `free`'s merge-overflow corner panics after partial
mutation. -/
theorem C8_atomicity (a : Allocator) :
    (∀ c s', a.reserve c = .fatal s' → s' = a)
    ∧ (∀ n s', a.alloc n = .fatal s' → s' = a)
    ∧ (∀ b s', a.find_allocated_chunk b = .fatal s' → s' = a)
    ∧ (∀ b s', mapGet a.heap_used_chunks b = none → a.free b = .fatal s' → s' = a) := by
  refine ⟨?_, ?_, ?_, ?_⟩
  · intro c s' h
    unfold Allocator.reserve at h
    split at h
    case isTrue =>
      simp only [OpResult.fatal.injEq] at h
      exact h.symm
    case isFalse =>
      cases hloop : reserveLoop c [] a.unused_chunks with
      | none =>
        rw [hloop] at h
        simp only [OpResult.fatal.injEq] at h
        exact h.symm
      | some newFree =>
        rw [hloop] at h
        exact absurd h (by simp)
  · intro n s' h
    exact alloc_fatal_eq h
  · intro b s' h
    cases hget : mapGet a.heap_used_chunks b with
    | none =>
      rw [find_not_key hget] at h
      simp only [OpResult.fatal.injEq] at h
      exact h.symm
    | some c =>
      unfold Allocator.find_allocated_chunk at h
      rw [hget] at h
      exact absurd h (by simp)
  · intro b s' hget h
    rw [free_not_key hget] at h
    simp only [OpResult.fatal.injEq] at h
    exact h.symm

/-- Witness for C8 (amended): a failing `reserve` of an already-used span
on the fresh allocator leaves the state unchanged. -/
theorem C8_atomicity_witness :
    Allocator.new.reserve (Chunk.mk 0 16) = OpResult.fatal Allocator.new
    ∧ Allocator.new = Allocator.new :=
  ⟨by decide, (C8_atomicity Allocator.new).1 (Chunk.mk 0 16) Allocator.new (by decide)⟩
